import Mathlib

set_option maxHeartbeats 1000000

namespace AirSync

/-!
Shallow embedding of the airsync-python core (src/airsync).

Python/JSON values are modelled by the mutual inductive family
`JTree` / `JList` / `JFields`.  Python dictionaries are association
lists (`JFields`) keyed by arbitrary values, which matches Python's
insertion-ordered dicts with unique keys; dict assignment replaces an
existing entry in place and otherwise appends.
-/

mutual

inductive JTree : Type where
  | jnull : JTree
  | jbool : Bool → JTree
  | jstr : String → JTree
  | jint : Int → JTree
  | jarr : JList → JTree
  | jobj : JFields → JTree
  deriving DecidableEq, Repr

inductive JList : Type where
  | nil : JList
  | cons : JTree → JList → JList
  deriving DecidableEq, Repr

inductive JFields : Type where
  | fnil : JFields
  | fcons : JTree → JTree → JFields → JFields
  deriving DecidableEq, Repr

end

/-- Dictionary lookup (`d[k]` / `d.get(k)`), first matching key. -/
def jget : JFields → JTree → Option JTree
  | .fnil, _ => none
  | .fcons k v rest, key => if k = key then some v else jget rest key

/-- Dictionary assignment `d[k] = v`: replace in place, else append. -/
def jset : JFields → JTree → JTree → JFields
  | .fnil, key, val => .fcons key val .fnil
  | .fcons k v rest, key, val =>
      if k = key then .fcons k val rest else .fcons k v (jset rest key val)

/-- Membership test `k in d`. -/
def jmem (fs : JFields) (key : JTree) : Bool := (jget fs key).isSome

/-- Deletion `del d[k]`. -/
def jdel : JFields → JTree → JFields
  | .fnil, _ => .fnil
  | .fcons k v rest, key => if k = key then rest else .fcons k v (jdel rest key)

/-- Python `base.update(other)`: fold the entries of `other` into `base`. -/
def jmerge : JFields → JFields → JFields
  | base, .fnil => base
  | base, .fcons k v rest => jmerge (jset base k v) rest

/-- Key list of a dict, in insertion order (`d.keys()`). -/
def jkeys : JFields → JList
  | .fnil => .nil
  | .fcons k _ rest => .cons k (jkeys rest)

/-- Python truthiness of a JSON-like value. -/
def truthy : JTree → Bool
  | .jnull => false
  | .jbool b => b
  | .jstr s => s != ""
  | .jint n => n != 0
  | .jarr .nil => false
  | .jarr (.cons _ _) => true
  | .jobj .fnil => false
  | .jobj (.fcons _ _ _) => true

/-- Python `d.get(k)` with a string key: `None` (here `jnull`) when absent. -/
def pyGet (fs : JFields) (k : String) : JTree := (jget fs (.jstr k)).getD .jnull

/-!
Cipher model (src/airsync/crypto.py).

AES-256-GCM is an external library (`cryptography.hazmat`); it is
modelled symbolically.  A transport string is either the base64 of a
well-formed `nonce ‖ ciphertext ‖ tag` frame produced under some key
(constructor `enc`, which records the key, the nonce and the carried
plaintext), or any other raw text (constructor `plain`).  GCM
decryption of a frame succeeds exactly when the frame was produced
under the same key; every other input fails authentication.
-/

structure EncFrame where
  keyId : Nat
  nonce : Nat
  plaintext : String
  deriving DecidableEq, Repr

inductive WireStr : Type where
  | enc : EncFrame → WireStr
  | plain : String → WireStr
  deriving DecidableEq, Repr

/-- AESSipher.encrypt_message (crypto.py lines 37-47): fresh nonce,
AES-GCM encrypt, base64(nonce + ciphertext). -/
def encrypt_message (key : Nat) (nonce : Nat) (message : String) : WireStr :=
  .enc ⟨key, nonce, message⟩

/-- Symbolic AESGCM.decrypt: succeeds iff the frame is authentic under `key`.
Raw non-frame text fails (base64 decode or the authentication tag fails). -/
def gcmDecrypt (key : Nat) (w : WireStr) : Option String :=
  match w with
  | .enc f => if f.keyId = key then some f.plaintext else none
  | .plain _ => none

/-- AESSipher.decrypt_message (crypto.py lines 49-62): on any failure
(InvalidTag or other) the raw input is returned unchanged. -/
def decrypt_message (key : Nat) (w : WireStr) : WireStr :=
  match gcmDecrypt key w with
  | some p => .plain p
  | none => w

/-- Lines 35-36 of WebSocketHandler.listen: the string handed to the JSON
parser.  Decryption is attempted only when `no_encrypt` is false. -/
def inboundString (noEncrypt : Bool) (key : Nat) (w : WireStr) : WireStr :=
  if !noEncrypt then decrypt_message key w else w

/-- C7: encrypting then decrypting under the same key round-trips: the
decrypted transport string is exactly the plaintext `p`. -/
theorem C7_encrypt_decrypt_roundtrip (key nonce : Nat) (p : String) :
    decrypt_message key (encrypt_message key nonce p) = .plain p := by
  simp [decrypt_message, encrypt_message, gcmDecrypt]

/-- C1 counterexample: with encryption enabled (`no_encrypt = false`), a
frame that fails AES-GCM authentication (produced under key 1, decrypted
under key 0) is passed through to the JSON parser as the raw input, and
`decrypt_message` itself returns the raw input unchanged — the failure is
not surfaced and the message is not dropped at the decryption layer. -/
theorem C1_counterexample :
    gcmDecrypt 0 (.enc ⟨1, 5, "x"⟩) = none ∧
    decrypt_message 0 (.enc ⟨1, 5, "x"⟩) = .enc ⟨1, 5, "x"⟩ ∧
    inboundString false 0 (.enc ⟨1, 5, "x"⟩) = .enc ⟨1, 5, "x"⟩ := by
  refine ⟨rfl, rfl, rfl⟩

/-- C1 amended: `decrypt_message` returns the raw input unchanged on every
authentication failure, independently of the server mode; the listen loop
attempts decryption only when encryption is enabled, so in encrypted mode
an authentication-failed frame is passed through to JSON parsing, while in
no-encrypt mode `decrypt_message` is never invoked and the raw input is
forwarded as-is. -/
theorem C1_decrypt_passthrough_unconditional (key : Nat) (w : WireStr)
    (hfail : gcmDecrypt key w = none) :
    decrypt_message key w = w ∧
    inboundString false key w = w ∧
    inboundString true key w = w := by
  refine ⟨?_, ?_, ?_⟩ <;> simp [decrypt_message, inboundString, hfail]

/-- C1 amended, witness at a concrete failing frame. -/
theorem C1_decrypt_passthrough_witness :
    decrypt_message 0 (.enc ⟨3, 7, "y"⟩) = .enc ⟨3, 7, "y"⟩ ∧
    inboundString false 0 (.enc ⟨3, 7, "y"⟩) = .enc ⟨3, 7, "y"⟩ ∧
    inboundString true 0 (.enc ⟨3, 7, "y"⟩) = .enc ⟨3, 7, "y"⟩ :=
  C1_decrypt_passthrough_unconditional 0 (.enc ⟨3, 7, "y"⟩) (by decide)

/-!
DeviceState (src/airsync/state.py).

The cache `_state` is a Python dict with five string keys, each slot
initially an empty dict.  The lock only serializes access and has no
effect on the sequential semantics modelled here; `deepcopy` on these
immutable trees is the identity (the aliasing content of `deepcopy` is
modelled in the heap section further below).  An update that raises in
Python (e.g. a type error on a non-dict slot) leaves the cache
unchanged and propagates; this is the `Except` error outcome.
-/

def initState : JFields :=
  .fcons (.jstr "device_info") (.jobj .fnil)
    (.fcons (.jstr "status") (.jobj .fnil)
      (.fcons (.jstr "notifications") (.jobj .fnil)
        (.fcons (.jstr "app_icons") (.jobj .fnil)
          (.fcons (.jstr "clipboard") (.jobj .fnil) .fnil))))

/-- DeviceState.set_device_info (state.py lines 23-29). -/
def set_device_info (st : JFields) (data : JTree) : JFields :=
  jset st (.jstr "device_info") data

/-- View a value as a dict; a non-dict where Python expects a dict raises. -/
def asObj : JTree → Option JFields
  | .jobj fs => some fs
  | _ => none

/-- Fetch a top-level slot of the cache as a dict (`self._state[k]` used as
a dict); missing slot or non-dict slot raises in Python. -/
def slotObj (st : JFields) (k : String) : Option JFields :=
  (jget st (.jstr k)).bind asObj

/-- DeviceState.update_state (state.py lines 31-58).  The key and the
payload are arbitrary Python values; branches follow the source.  An
update that raises (type error on a non-dict) yields `.error`. -/
def update_state (st : JFields) (key data : JTree) : Except Unit JFields :=
  if key = .jstr "notification" then
    match asObj data with
    | none => .error ()
    | some fs =>
        if truthy (pyGet fs "id") then
          match slotObj st "notifications" with
          | none => .error ()
          | some m =>
              .ok (jset st (.jstr "notifications")
                    (.jobj (jset m (pyGet fs "id") data)))
        else .ok st
  else if key = .jstr "notificationUpdate" then
    match asObj data with
    | none => .error ()
    | some fs =>
        if truthy (pyGet fs "dismissed") then
          match slotObj st "notifications" with
          | none => .error ()
          | some m =>
              if jmem m (pyGet fs "id") then
                .ok (jset st (.jstr "notifications")
                      (.jobj (jdel m (pyGet fs "id"))))
              else .ok st
        else .ok st
  else if key = .jstr "appIcons" then
    match slotObj st "app_icons", asObj data with
    | some m, some d =>
        .ok (jset st (.jstr "app_icons") (.jobj (jmerge m d)))
    | _, _ => .error ()
  else if key = .jstr "clipboardUpdate" then
    .ok (jset st (.jstr "clipboard") data)
  else if jmem st key then
    .ok (jset st key data)
  else
    .ok st

/-- DeviceState.get_state (state.py lines 60-71): a truthy key selects one
slot (empty dict default), a falsy key returns the whole mapping.  On
these pure trees the `deepcopy` is the identity. -/
def get_state (st : JFields) (key : JTree) : JTree :=
  if truthy key then (jget st key).getD (.jobj .fnil)
  else .jobj st

/-- Run a list of update_state calls from the given cache; a raising
update leaves the cache unchanged (callers catch and continue). -/
def applyUpdates (st : JFields) : List (JTree × JTree) → JFields
  | [] => st
  | (k, d) :: rest =>
      match update_state st k d with
      | .ok st2 => applyUpdates st2 rest
      | .error _ => applyUpdates st rest

theorem jget_jset_self (key val : JTree) :
    (fs : JFields) → jget (jset fs key val) key = some val
  | .fnil => by simp [jset, jget]
  | .fcons k0 v0 rest => by
      by_cases h0 : k0 = key <;>
        simp [jset, jget, h0, jget_jset_self key val rest]

theorem jget_jset_ne (k key val : JTree) (h : k ≠ key) :
    (fs : JFields) → jget (jset fs key val) k = jget fs k
  | .fnil => by simp [jset, jget, Ne.symm h]
  | .fcons k0 v0 rest => by
      by_cases h0 : k0 = key
      · subst h0
        simp [jset, jget, Ne.symm h]
      · by_cases h1 : k0 = k <;>
          simp [jset, jget, h0, h1, h, Ne.symm h,
            jget_jset_ne k key val h rest]

theorem jmem_jset (fs : JFields) (k key val : JTree) :
    jmem (jset fs key val) k = (k = key || jmem fs k) := by
  by_cases h : k = key
  · subst h; simp [jmem, jget_jset_self]
  · simp [jmem, jget_jset_ne k key val h fs, h]

/-- Shape of a successful update: the cache is unchanged, or exactly one
top-level slot is overwritten — a slot that was already present, except
for the `clipboardUpdate` branch which writes the `clipboard` slot. -/
theorem update_state_shape (st st2 : JFields) (key data : JTree)
    (h : update_state st key data = .ok st2) :
    st2 = st ∨ ∃ sk v, st2 = jset st sk v ∧
      (jmem st sk = true ∨ sk = .jstr "clipboard") := by
  have slotMem : ∀ (k : String) m, slotObj st k = some m →
      jmem st (.jstr k) = true := by
    intro k m hm
    unfold slotObj at hm
    unfold jmem
    cases hg : jget st (.jstr k) with
    | none => rw [hg] at hm; simp at hm
    | some v => simp
  unfold update_state at h
  split at h
  · -- notification branch
    split at h
    · cases h
    · split at h
      · split at h
        · cases h
        · rename_i m hm
          simp at h
          exact Or.inr ⟨_, _, h.symm, Or.inl (slotMem _ _ hm)⟩
      · simp at h
        exact Or.inl h.symm
  · split at h
    · -- notificationUpdate branch
      split at h
      · cases h
      · split at h
        · split at h
          · cases h
          · rename_i m hm
            split at h
            · simp at h
              exact Or.inr ⟨_, _, h.symm, Or.inl (slotMem _ _ hm)⟩
            · simp at h
              exact Or.inl h.symm
        · simp at h
          exact Or.inl h.symm
    · split at h
      · -- appIcons branch
        split at h
        · rename_i m d hm hd
          simp at h
          exact Or.inr ⟨_, _, h.symm, Or.inl (slotMem _ _ hm)⟩
        · cases h
      · split at h
        · -- clipboardUpdate branch
          simp at h
          exact Or.inr ⟨_, _, h.symm, Or.inr rfl⟩
        · split at h
          · rename_i hmem
            simp at h
            exact Or.inr ⟨_, _, h.symm, Or.inl hmem⟩
          · simp at h
            exact Or.inl h.symm

/-- The cache keys are an invariant: they always remain exactly the five
keys of the initial state. -/
theorem update_state_wf (st st2 : JFields) (key data : JTree)
    (hwf : ∀ k, jmem st k = jmem initState k)
    (h : update_state st key data = .ok st2) :
    ∀ k, jmem st2 k = jmem initState k := by
  intro k
  rcases update_state_shape st st2 key data h with h1 | ⟨sk, v, h1, h2⟩
  · subst h1; exact hwf k
  · subst h1
    rw [jmem_jset]
    by_cases hk : k = sk
    · subst hk
      rcases h2 with h2 | h2
      · simp [← hwf k, h2]
      · subst h2
        simp [initState, jmem, jget]
    · simp [hk, hwf k]

theorem applyUpdates_wf (us : List (JTree × JTree)) (st : JFields)
    (hwf : ∀ k, jmem st k = jmem initState k) :
    ∀ k, jmem (applyUpdates st us) k = jmem initState k := by
  induction us generalizing st with
  | nil => exact hwf
  | cons u rest ih =>
      unfold applyUpdates
      cases hu : update_state st u.1 u.2 with
      | ok st2 => exact ih st2 (update_state_wf st st2 u.1 u.2 hwf hu)
      | error e => exact ih st hwf

def cacheKeys : List JTree :=
  [.jstr "device_info", .jstr "status", .jstr "notifications",
   .jstr "app_icons", .jstr "clipboard"]

theorem jmem_init_of_not_cacheKey (k : JTree) (h : k ∉ cacheKeys) :
    jmem initState k = false := by
  simp [cacheKeys] at h
  obtain ⟨h1, h2, h3, h4, h5⟩ := h
  simp [initState, jmem, jget, Ne.symm h1, Ne.symm h2, Ne.symm h3,
    Ne.symm h4, Ne.symm h5]

/-- C10: after any sequence of updates, `get_state` with a truthy key that
is not one of the five cache keys returns the empty mapping (neither an
exception nor null); with a falsy key (`None` or the empty string) it
returns the entire state mapping, whose keys are still exactly the five
recognized cache keys. -/
theorem C10_get_state_unknown_and_falsy_keys
    (us : List (JTree × JTree)) (k : JTree) (hk : k ∉ cacheKeys) :
    (truthy k = true →
      get_state (applyUpdates initState us) k = .jobj .fnil) ∧
    ((k = .jnull ∨ k = .jstr "") →
      get_state (applyUpdates initState us) k =
        .jobj (applyUpdates initState us)) ∧
    (∀ k2, jmem (applyUpdates initState us) k2 = jmem initState k2) := by
  refine ⟨?_, ?_, applyUpdates_wf us initState (fun _ => rfl)⟩
  · intro ht
    have hmem := applyUpdates_wf us initState (fun _ => rfl) k
    rw [jmem_init_of_not_cacheKey k hk] at hmem
    unfold get_state
    rw [ht]
    simp only [if_true]
    unfold jmem at hmem
    cases hg : jget (applyUpdates initState us) k with
    | none => simp
    | some v => rw [hg] at hmem; simp at hmem
  · intro hf
    have ht : truthy k = false := by
      rcases hf with h | h <;> subst h <;> rfl
    simp [get_state, ht]

/-- C10 witness: concrete run, unknown truthy key and the two falsy keys. -/
theorem C10_get_state_witness :
    get_state (applyUpdates initState
        [(.jstr "status", .jobj (.fcons (.jstr "battery") (.jint 80) .fnil))])
      (.jstr "bogus") = .jobj .fnil ∧
    get_state (applyUpdates initState
        [(.jstr "status", .jobj (.fcons (.jstr "battery") (.jint 80) .fnil))])
      .jnull = .jobj (applyUpdates initState
        [(.jstr "status", .jobj (.fcons (.jstr "battery") (.jint 80) .fnil))]) := by
  constructor
  · exact (C10_get_state_unknown_and_falsy_keys _ (.jstr "bogus")
      (by decide)).1 (by decide)
  · exact ((C10_get_state_unknown_and_falsy_keys _ .jnull
      (by decide)).2.1 (Or.inl rfl))

/-- Unique keys of a dict (an invariant of every Python dict). -/
def uniqKeys : JFields → Bool
  | .fnil => true
  | .fcons k _ rest => !jmem rest k && uniqKeys rest

theorem jget_jdel_self (k : JTree) :
    (m : JFields) → uniqKeys m = true → jget (jdel m k) k = none
  | .fnil, _ => by simp [jdel, jget]
  | .fcons k0 v0 rest, h => by
      simp [uniqKeys] at h
      by_cases h0 : k0 = k
      · subst h0
        have h1 := h.1
        unfold jmem at h1
        cases hg : jget rest k0 with
        | none => simp [jdel, hg]
        | some v => rw [hg] at h1; simp at h1
      · simp [jdel, jget, h0, jget_jdel_self k rest h.2]

theorem jget_jdel_ne (j k : JTree) (h : j ≠ k) :
    (m : JFields) → jget (jdel m k) j = jget m j
  | .fnil => rfl
  | .fcons k0 v0 rest => by
      by_cases h0 : k0 = k
      · subst h0
        simp [jdel, jget, Ne.symm h]
      · by_cases h1 : k0 = j <;>
          simp [jdel, jget, h0, h1, h, jget_jdel_ne j k h rest]

/-- C9 counterexample: a notification payload whose `id` is the empty
string (a falsy identifier).  The claim demands that the notifications map
then contains the entry `"" ↦ d`; the code skips the insertion entirely
and the cache is returned unchanged, with an empty notifications map. -/
theorem C9_counterexample :
    update_state initState (.jstr "notification")
        (.jobj (.fcons (.jstr "id") (.jstr "") .fnil)) = .ok initState ∧
    get_state initState (.jstr "notifications") = .jobj .fnil := ⟨rfl, rfl⟩

/-- C9 (amended): on a cache whose notifications slot is a dict `m` with
unique keys: `update_state("notification", d)` inserts or replaces the
entry `d.id ↦ d` provided `d.id` is truthy, and leaves the cache unchanged
when `d.id` is falsy; `update_state("notificationUpdate", u)` removes the
entry `u.id` iff `u.dismissed` is truthy and `u.id` is present, and leaves
the cache unchanged otherwise; entries under other keys are untouched. -/
theorem C9_notification_lifecycle (st m fs ufs : JFields)
    (hm : jget st (.jstr "notifications") = some (.jobj m))
    (hu : uniqKeys m = true) :
    (truthy (pyGet fs "id") = true →
      ∃ st2 m2, update_state st (.jstr "notification") (.jobj fs) = .ok st2 ∧
        jget st2 (.jstr "notifications") = some (.jobj m2) ∧
        jget m2 (pyGet fs "id") = some (.jobj fs) ∧
        ∀ j, j ≠ pyGet fs "id" → jget m2 j = jget m j) ∧
    (truthy (pyGet fs "id") = false →
      update_state st (.jstr "notification") (.jobj fs) = .ok st) ∧
    (truthy (pyGet ufs "dismissed") = true → jmem m (pyGet ufs "id") = true →
      ∃ st2 m2,
        update_state st (.jstr "notificationUpdate") (.jobj ufs) = .ok st2 ∧
        jget st2 (.jstr "notifications") = some (.jobj m2) ∧
        jget m2 (pyGet ufs "id") = none ∧
        ∀ j, j ≠ pyGet ufs "id" → jget m2 j = jget m j) ∧
    (truthy (pyGet ufs "dismissed") = false ∨ jmem m (pyGet ufs "id") = false →
      update_state st (.jstr "notificationUpdate") (.jobj ufs) = .ok st) := by
  have hslot : slotObj st "notifications" = some m := by
    simp [slotObj, hm, asObj]
  refine ⟨?_, ?_, ?_, ?_⟩
  · intro ht
    refine ⟨_, _, ?_, jget_jset_self _ _ st, jget_jset_self _ _ m, ?_⟩
    · simp [update_state, ht, hslot, asObj]
    · intro j hj
      exact jget_jset_ne j _ _ hj m
  · intro ht
    simp [update_state, ht, asObj]
  · intro ht hmem
    refine ⟨_, _, ?_, jget_jset_self _ _ st, jget_jdel_self _ m hu, ?_⟩
    · simp [update_state, ht, hslot, hmem, asObj]
    · intro j hj
      exact jget_jdel_ne j _ hj m
  · intro hcase
    rcases hcase with ht | hmem
    · simp [update_state, ht, asObj]
    · simp [update_state, hmem, hslot, asObj]

/-- C9 witness: a cache holding notification `n1`; inserting `n2` and
dismissing `n1` behave as stated. -/
theorem C9_notification_lifecycle_witness :
    (∃ st2 m2,
      update_state
          (.fcons (.jstr "notifications")
            (.jobj (.fcons (.jstr "n1") .jnull .fnil)) .fnil)
          (.jstr "notification")
          (.jobj (.fcons (.jstr "id") (.jstr "n2") .fnil)) = .ok st2 ∧
      jget st2 (.jstr "notifications") = some (.jobj m2) ∧
      jget m2 (pyGet (.fcons (.jstr "id") (.jstr "n2") .fnil) "id") =
        some (.jobj (.fcons (.jstr "id") (.jstr "n2") .fnil)) ∧
      ∀ j, j ≠ pyGet (.fcons (.jstr "id") (.jstr "n2") .fnil) "id" →
        jget m2 j = jget (.fcons (.jstr "n1") .jnull .fnil) j) ∧
    (∃ st2 m2,
      update_state
          (.fcons (.jstr "notifications")
            (.jobj (.fcons (.jstr "n1") .jnull .fnil)) .fnil)
          (.jstr "notificationUpdate")
          (.jobj (.fcons (.jstr "id") (.jstr "n1")
            (.fcons (.jstr "dismissed") (.jbool true) .fnil))) = .ok st2 ∧
      jget st2 (.jstr "notifications") = some (.jobj m2) ∧
      jget m2 (pyGet (.fcons (.jstr "id") (.jstr "n1")
        (.fcons (.jstr "dismissed") (.jbool true) .fnil)) "id") = none ∧
      ∀ j, j ≠ pyGet (.fcons (.jstr "id") (.jstr "n1")
          (.fcons (.jstr "dismissed") (.jbool true) .fnil)) "id" →
        jget m2 j = jget (.fcons (.jstr "n1") .jnull .fnil) j) := by
  have h := C9_notification_lifecycle
    (.fcons (.jstr "notifications")
      (.jobj (.fcons (.jstr "n1") .jnull .fnil)) .fnil)
    (.fcons (.jstr "n1") .jnull .fnil)
    (.fcons (.jstr "id") (.jstr "n2") .fnil)
    (.fcons (.jstr "id") (.jstr "n1")
      (.fcons (.jstr "dismissed") (.jbool true) .fnil))
    rfl (by decide)
  exact ⟨h.1 (by decide), h.2.2.1 (by decide) (by decide)⟩

/-!
SHA-256 (FIPS 180-4), modelling Python's external `hashlib.sha256`.
Bytes are naturals below 256; 32-bit arithmetic is `Nat` reduced
modulo 2^32.  The incremental `hash.update(chunk)` calls of the handler
are modelled by accumulating the appended bytes; `hexdigest()` is
`sha256hex` of the accumulated bytes.
-/

def w32 (n : Nat) : Nat := n % 4294967296

def rotr32 (x k : Nat) : Nat := w32 ((x >>> k) ||| (x <<< (32 - k)))

def shaCh (x y z : Nat) : Nat := (x &&& y) ^^^ ((x ^^^ 4294967295) &&& z)

def shaMaj (x y z : Nat) : Nat := (x &&& y) ^^^ (x &&& z) ^^^ (y &&& z)

def bigSigma0 (x : Nat) : Nat := rotr32 x 2 ^^^ rotr32 x 13 ^^^ rotr32 x 22

def bigSigma1 (x : Nat) : Nat := rotr32 x 6 ^^^ rotr32 x 11 ^^^ rotr32 x 25

def smallSigma0 (x : Nat) : Nat := rotr32 x 7 ^^^ rotr32 x 18 ^^^ (x >>> 3)

def smallSigma1 (x : Nat) : Nat := rotr32 x 17 ^^^ rotr32 x 19 ^^^ (x >>> 10)

def shaK : List Nat :=
  [1116352408, 1899447441, 3049323471,
   3921009573, 961987163, 1508970993,
   2453635748, 2870763221, 3624381080,
   310598401, 607225278, 1426881987,
   1925078388, 2162078206, 2614888103,
   3248222580, 3835390401, 4022224774,
   264347078, 604807628, 770255983,
   1249150122, 1555081692, 1996064986,
   2554220882, 2821834349, 2952996808,
   3210313671, 3336571891, 3584528711,
   113926993, 338241895, 666307205,
   773529912, 1294757372, 1396182291,
   1695183700, 1986661051, 2177026350,
   2456956037, 2730485921, 2820302411,
   3259730800, 3345764771, 3516065817,
   3600352804, 4094571909, 275423344,
   430227734, 506948616, 659060556,
   883997877, 958139571, 1322822218,
   1537002063, 1747873779, 1955562222,
   2024104815, 2227730452, 2361852424,
   2428436474, 2756734187, 3204031479,
   3329325298]

def shaH0 : List Nat :=
  [1779033703, 3144134277, 1013904242,
   2773480762, 1359893119, 2600822924,
   528734635, 1541459225]

/-- Big-endian byte expansion of a value into `k` bytes. -/
def beBytes : Nat → Nat → List Nat
  | 0, _ => []
  | k + 1, v => beBytes k (v / 256) ++ [v % 256]

/-- SHA-256 message padding. -/
def shaPad (msg : List Nat) : List Nat :=
  msg ++ [128] ++ List.replicate ((55 + 64 - msg.length % 64) % 64) 0
      ++ beBytes 8 (8 * msg.length)

/-- Big-endian 32-bit words from bytes. -/
def beWords : List Nat → List Nat
  | a :: b :: c :: d :: rest =>
      (((a * 256 + b) * 256 + c) * 256 + d) :: beWords rest
  | _ => []

/-- Split a word list into 16-word blocks (fuel keeps the recursion
structural so the kernel can evaluate it; any fuel of at least the list
length is enough). -/
def toBlocksF : Nat → List Nat → List (List Nat)
  | 0, _ => []
  | _, [] => []
  | fuel + 1, ws => ws.take 16 :: toBlocksF fuel (ws.drop 16)

def toBlocks (ws : List Nat) : List (List Nat) := toBlocksF ws.length ws

def iterN (f : α → α) : Nat → α → α
  | 0, a => a
  | n + 1, a => iterN f n (f a)

/-- One message-schedule extension step: append word W[n] for n ≥ 16. -/
def shaExtendStep (ws : List Nat) : List Nat :=
  let n := ws.length
  ws ++ [w32 (smallSigma1 (ws.getD (n - 2) 0) + ws.getD (n - 7) 0 +
              smallSigma0 (ws.getD (n - 15) 0) + ws.getD (n - 16) 0)]

/-- One compression round on state [a,b,c,d,e,f,g,h]. -/
def shaRound (st : List Nat) (wk : Nat × Nat) : List Nat :=
  match st with
  | [a, b, c, d, e, f, g, h] =>
      let t1 := w32 (h + bigSigma1 e + shaCh e f g + wk.2 + wk.1)
      let t2 := w32 (bigSigma0 a + shaMaj a b c)
      [w32 (t1 + t2), a, b, c, w32 (d + t1), e, f, g]
  | _ => st

/-- Process one 16-word block. -/
def shaBlock (hs block : List Nat) : List Nat :=
  let w := iterN shaExtendStep 48 block
  let st := (w.zip shaK).foldl shaRound hs
  (hs.zip st).map (fun p => w32 (p.1 + p.2))

/-- SHA-256 digest bytes of a byte string. -/
def sha256bytes (msg : List Nat) : List Nat :=
  ((toBlocks (beWords (shaPad msg))).foldl shaBlock shaH0).flatMap (beBytes 4)

def hexDigit (n : Nat) : Char :=
  if n < 10 then Char.ofNat (48 + n) else Char.ofNat (87 + n)

def byteHex (b : Nat) : String :=
  String.mk [hexDigit (b / 16), hexDigit (b % 16)]

/-- Lower-case hex digest (`hashlib.sha256(...).hexdigest()`). -/
def sha256hex (msg : List Nat) : String :=
  String.join ((sha256bytes msg).map byteHex)

/-- Known-answer test: the model computes the standard SHA-256 digest of
the empty string. -/
theorem sha256hex_kat_empty :
    sha256hex [] =
    "e3b0c44298fc1c149afbf4c8996fb92427ae41e4649b934ca495991b7852b855" := by
  decide

/-- Known-answer test: the model computes the standard SHA-256 digest of
"abc". -/
theorem sha256hex_kat_abc :
    sha256hex [97, 98, 99] =
    "ba7816bf8f01cfea414140de5dae2223b00361a396177a9cb410ff61f20015ad" := by
  decide

/-!
Base64 (Python's external `base64.b64decode`, which calls
`binascii.a2b_base64` in its default non-strict mode).  The decoder is a
character-wise state machine over the position inside the current
four-character group: characters outside the standard alphabet are
skipped; a `=` seen with fewer than two data characters in the current
group is ignored; a `=` seen with two or three data characters counts as
padding, and once the group is completed by padding the decoder stops
successfully, discarding the rest of the input; input that ends inside a
group without such a padding termination raises `binascii.Error`
(modelled as `none`).  Python string operations used by the icon cache
are modelled over the character list of the string.
-/

def b64Index (c : Char) : Option Nat :=
  if 65 ≤ c.toNat ∧ c.toNat ≤ 90 then some (c.toNat - 65)
  else if 97 ≤ c.toNat ∧ c.toNat ≤ 122 then some (c.toNat - 97 + 26)
  else if 48 ≤ c.toNat ∧ c.toNat ≤ 57 then some (c.toNat - 48 + 52)
  else if c = '+' then some 62
  else if c = '/' then some 63
  else none

/-- The `a2b_base64` loop: `quadPos` is the number of data characters in
the current group, `leftchar` their leftover bits, `pads` the pending
padding count (reset by every data character, untouched by skipped
characters and by a `=` in group position 0 or 1). -/
def b64Run : List Char → Nat → Nat → Nat → List Nat → Option (List Nat)
  | [], quadPos, _, _, acc => if quadPos = 0 then some acc else none
  | c :: rest, quadPos, leftchar, pads, acc =>
      if c = '=' then
        if 2 ≤ quadPos then
          if 4 ≤ quadPos + (pads + 1) then some acc
          else b64Run rest quadPos leftchar (pads + 1) acc
        else b64Run rest quadPos leftchar pads acc
      else
        match b64Index c with
        | none => b64Run rest quadPos leftchar pads acc
        | some d =>
            match quadPos with
            | 0 => b64Run rest 1 d 0 acc
            | 1 => b64Run rest 2 (d % 16) 0 (acc ++ [leftchar * 4 + d / 16])
            | 2 => b64Run rest 3 (d % 4) 0 (acc ++ [leftchar * 16 + d / 4])
            | _ => b64Run rest 0 0 0 (acc ++ [leftchar * 64 + d])

def b64decodePy (cs : List Char) : Option (List Nat) := b64Run cs 0 0 0 []

/-- Known-answer tests for the non-strict decoder, matching CPython: a
group-completing pad stops decoding and discards the rest; a pad before
two data characters is ignored; commas are skipped; a group left open at
the end of input raises. -/
theorem b64decodePy_nonstrict_kat :
    b64decodePy "QUJ=XXXX".data = some [65, 66] ∧
    b64decodePy "QU=JD???".data = some [65, 66, 67] ∧
    b64decodePy "=QUJD".data = some [65, 66, 67] ∧
    b64decodePy "QU==X".data = some [65] ∧
    b64decodePy "QQ=Q=".data = some [65, 4] ∧
    b64decodePy "QUJD,,,,QUJD".data = some [65, 66, 67, 65, 66, 67] ∧
    b64decodePy "QUJ".data = none ∧
    b64decodePy "QUJDQ===".data = none ∧
    b64decodePy "".data = some [] := by
  refine ⟨?_, ?_, ?_, ?_, ?_, ?_, ?_, ?_, ?_⟩ <;> decide

/-- Python whitespace for `str.strip()` (the code points with
`str.isspace() = True`: ASCII control whitespace, NEL, NBSP and the
Unicode space separators). -/
def pyWS (c : Char) : Bool :=
  (9 ≤ c.toNat && c.toNat ≤ 13) ||
  (28 ≤ c.toNat && c.toNat ≤ 31) ||
  c.toNat = 32 || c.toNat = 133 || c.toNat = 160 || c.toNat = 5760 ||
  (8192 ≤ c.toNat && c.toNat ≤ 8202) ||
  c.toNat = 8232 || c.toNat = 8233 || c.toNat = 8239 ||
  c.toNat = 8287 || c.toNat = 12288

def pyStrip (cs : List Char) : List Char :=
  ((cs.dropWhile pyWS).reverse.dropWhile pyWS).reverse

def dropThroughComma : List Char → List Char
  | [] => []
  | c :: rest => if c = ',' then rest else dropThroughComma rest

/-- Python `s.split(',', 1)[1] if "," in s else s`
(websocket_handler.py line 119): everything after the FIRST comma, or
the whole string when it has no comma. -/
def afterFirstComma (cs : List Char) : List Char :=
  if cs.contains ',' then dropThroughComma cs else cs

/-- Lines 119-121: first-comma split, strip, URL-safe to standard
alphabet, right-pad with `=` to a multiple of 4. -/
def normalizeIconB64 (s : String) : List Char :=
  let t := ((pyStrip (afterFirstComma s.data)).map
    (fun c => if c = '-' then '+' else c)).map
    (fun c => if c = '_' then '/' else c)
  t ++ List.replicate ((4 - t.length % 4) % 4) '='

/-- Flat file-system view of the icon cache: path to content bytes. -/
abbrev FileSys := List (String × List Nat)

def fsLookup : FileSys → String → Option (List Nat)
  | [], _ => none
  | (p, c) :: rest, path => if p = path then some c else fsLookup rest path

def fsWrite : FileSys → String → List Nat → FileSys
  | [], path, bytes => [(path, bytes)]
  | (p, c) :: rest, path, bytes =>
      if p = path then (p, bytes) :: rest else (p, c) :: fsWrite rest path bytes

/-- The try-block of one appIcons entry (lines 114-130): write the decoded
icon to `<root>/<pkg>.png` iff the file is absent or empty; a decode
failure (`binascii.Error`) is caught and writes nothing. -/
def cacheIcon (fs : FileSys) (cacheRoot pkg icon : String) : FileSys :=
  let iconPath := cacheRoot ++ "/" ++ pkg ++ ".png"
  let needWrite :=
    match fsLookup fs iconPath with
    | none => true
    | some content => content.length == 0
  if needWrite then
    match b64decodePy (normalizeIconB64 icon) with
    | some bytes => fsWrite fs iconPath bytes
    | none => fs
  else fs

/-- One loop iteration of handle_appIcons for one (package, icon) entry
(lines 110-130), restricted to its file-system effect: a falsy icon is
skipped (line 113), a non-string icon raises inside the try and is
caught, everything else runs the caching try-block. -/
def processIconEntry (fs : FileSys) (cacheRoot pkg : String) (icon : JTree) :
    FileSys :=
  if truthy icon then
    match icon with
    | .jstr s => cacheIcon fs cacheRoot pkg s
    | _ => fs
  else fs

/-- The Unicode-whitespace strip matters: an icon string with a leading
file-separator character (U+001C, stripped by Python's `str.strip()`
before the padding length is computed) is decoded and written. -/
theorem cacheIcon_strips_unicode_ws :
    processIconEntry [] "cache/icons" "com.x" (.jstr "\x1cQUJD") =
      [("cache/icons/com.x.png", [65, 66, 67])] := by
  decide

/-!
Incoming file transfers (websocket_handler.py lines 172-224).  An
incoming TransferState holds the temp-file path and the bytes appended
so far (the running SHA-256 accumulator state is exactly those bytes;
`hexdigest()` is `sha256hex` of them).  The transfer table is a dict
keyed by the sender-chosen id value.
-/

structure IncomingTransfer where
  path : String
  bytes : List Nat
  deriving DecidableEq, Repr

abbrev TransferTable := List (JTree × IncomingTransfer)

def ftLookup : TransferTable → JTree → Option IncomingTransfer
  | [], _ => none
  | (k, t) :: rest, key => if k = key then some t else ftLookup rest key

def ftErase : TransferTable → JTree → TransferTable
  | [], _ => []
  | (k, t) :: rest, key =>
      if k = key then rest else (k, t) :: ftErase rest key

/-- In-place update of a transfer record (mutation of the stored dict). -/
def ftSet : TransferTable → JTree → IncomingTransfer → TransferTable
  | [], key, t => [(key, t)]
  | (k, t0) :: rest, key, t =>
      if k = key then (k, t) :: rest else (k, t0) :: ftSet rest key t

/-- A `{"type": ..., "data": ...}` message as built by `self.send`. -/
def mkMsg (ty : String) (data : JTree) : JTree :=
  .jobj (.fcons (.jstr "type") (.jstr ty) (.fcons (.jstr "data") data .fnil))

/-- WebSocketHandler.handle_fileChunk (lines 187-198): append the decoded
chunk to a known transfer and fold it into the hash; unknown ids and
decode failures leave the table unchanged. -/
def handle_fileChunk (fts : TransferTable) (data : JFields) : TransferTable :=
  let tf_id := pyGet data "id"
  match ftLookup fts tf_id with
  | none => fts
  | some t =>
      match jget data (.jstr "chunk") with
      | some (.jstr s) =>
          match b64decodePy s.data with
          | some chunk => ftSet fts tf_id ⟨t.path, t.bytes ++ chunk⟩
          | none => fts
      | none => ftSet fts tf_id ⟨t.path, t.bytes⟩
      | some _ => fts

structure CompleteResult where
  transfers : TransferTable
  closedHandles : List String
  fired : List (String × JTree)
  sent : List JTree
  deriving DecidableEq, Repr

/-- WebSocketHandler.handle_fileTransferComplete (lines 208-224). -/
def handle_fileTransferComplete (fts : TransferTable) (data : JFields) :
    CompleteResult :=
  let tf_id := pyGet data "id"
  match ftLookup fts tf_id with
  | none => ⟨fts, [], [], []⟩
  | some t =>
      let final_hash := sha256hex t.bytes
      let doc_hash := pyGet data "checksum"
      let verified :=
        if truthy doc_hash && !(doc_hash == .jstr "null") then
          doc_hash == .jstr final_hash
        else true
      let data2 := jset (jset data (.jstr "temp_path") (.jstr t.path))
        (.jstr "verified") (.jbool verified)
      { transfers := ftErase fts tf_id
        closedHandles := [t.path]
        fired := [("fileTransferComplete", .jobj data2)]
        sent := [mkMsg "transferVerified"
          (.jobj (.fcons (.jstr "id") tf_id
            (.fcons (.jstr "verified") (.jbool verified) .fnil)))] }

/-- C3 counterexample: the sender supplies the checksum string "null" — a
non-null value that can never equal a 64-character hex digest, so the
claim demands `verified = false`; the code treats the string "null" as
"no checksum" and replies `verified = true`. -/
theorem C3_counterexample :
    (handle_fileTransferComplete
        [(.jstr "t1", ⟨"/tmp/airsync_x", []⟩)]
        (.fcons (.jstr "id") (.jstr "t1")
          (.fcons (.jstr "checksum") (.jstr "null") .fnil))).sent =
      [mkMsg "transferVerified"
        (.jobj (.fcons (.jstr "id") (.jstr "t1")
          (.fcons (.jstr "verified") (.jbool true) .fnil)))] ∧
    sha256hex [] ≠ "null" := by
  exact ⟨by decide, by decide⟩

/-- C3 (amended): on `fileTransferComplete` with a known id, the temp file
handle is closed, and `verified` is computed as: if the sender supplied a
truthy checksum other than the literal string "null", `verified` is true
iff it equals the hex SHA-256 of the bytes appended so far, otherwise
`verified` is true; the event payload is enriched with `temp_path` and
`verified`, a `transferVerified{id, verified}` reply is sent, and the
transfer record is deleted from the table. -/
theorem C3_transfer_complete (fts : TransferTable) (data : JFields)
    (t : IncomingTransfer)
    (hknown : ftLookup fts (pyGet data "id") = some t) :
    ∃ verified : Bool,
      (∀ c, pyGet data "checksum" = c → truthy c = true → c ≠ .jstr "null" →
        (verified = true ↔ c = .jstr (sha256hex t.bytes))) ∧
      ((truthy (pyGet data "checksum") = false ∨
        pyGet data "checksum" = .jstr "null") → verified = true) ∧
      handle_fileTransferComplete fts data =
        { transfers := ftErase fts (pyGet data "id")
          closedHandles := [t.path]
          fired := [("fileTransferComplete",
            .jobj (jset (jset data (.jstr "temp_path") (.jstr t.path))
              (.jstr "verified") (.jbool verified)))]
          sent := [mkMsg "transferVerified"
            (.jobj (.fcons (.jstr "id") (pyGet data "id")
              (.fcons (.jstr "verified") (.jbool verified) .fnil)))] } := by
  refine ⟨if truthy (pyGet data "checksum") &&
      !(pyGet data "checksum" == JTree.jstr "null") then
        pyGet data "checksum" == .jstr (sha256hex t.bytes)
      else true, ?_, ?_, ?_⟩
  · intro c hc htr hnn
    rw [hc]
    simp [htr, hnn]
  · intro hcase
    rcases hcase with h | h <;> simp [h]
  · simp only [handle_fileTransferComplete, hknown]

/-- C3 witness: a transfer whose received bytes are "abc" and whose
declared checksum is the correct SHA-256 digest is verified. -/
theorem C3_transfer_complete_witness :
    ∃ verified : Bool,
      (∀ c, pyGet (.fcons (.jstr "id") (.jstr "t2")
            (.fcons (.jstr "checksum")
              (.jstr (sha256hex [97, 98, 99])) .fnil)) "checksum" = c →
          truthy c = true → c ≠ .jstr "null" →
        (verified = true ↔
          c = .jstr (sha256hex
            (IncomingTransfer.mk "/tmp/airsync_y" [97, 98, 99]).bytes))) ∧
      ((truthy (pyGet (.fcons (.jstr "id") (.jstr "t2")
            (.fcons (.jstr "checksum")
              (.jstr (sha256hex [97, 98, 99])) .fnil)) "checksum") = false ∨
        pyGet (.fcons (.jstr "id") (.jstr "t2")
            (.fcons (.jstr "checksum")
              (.jstr (sha256hex [97, 98, 99])) .fnil)) "checksum" =
          .jstr "null") → verified = true) ∧
      handle_fileTransferComplete
          [(.jstr "t2", ⟨"/tmp/airsync_y", [97, 98, 99]⟩)]
          (.fcons (.jstr "id") (.jstr "t2")
            (.fcons (.jstr "checksum")
              (.jstr (sha256hex [97, 98, 99])) .fnil)) =
        { transfers := ftErase
            [(.jstr "t2", ⟨"/tmp/airsync_y", [97, 98, 99]⟩)]
            (pyGet (.fcons (.jstr "id") (.jstr "t2")
              (.fcons (.jstr "checksum")
                (.jstr (sha256hex [97, 98, 99])) .fnil)) "id")
          closedHandles := ["/tmp/airsync_y"]
          fired := [("fileTransferComplete",
            .jobj (jset (jset (.fcons (.jstr "id") (.jstr "t2")
                (.fcons (.jstr "checksum")
                  (.jstr (sha256hex [97, 98, 99])) .fnil))
                (.jstr "temp_path") (.jstr "/tmp/airsync_y"))
              (.jstr "verified") (.jbool verified)))]
          sent := [mkMsg "transferVerified"
            (.jobj (.fcons (.jstr "id")
              (pyGet (.fcons (.jstr "id") (.jstr "t2")
                (.fcons (.jstr "checksum")
                  (.jstr (sha256hex [97, 98, 99])) .fnil)) "id")
              (.fcons (.jstr "verified") (.jbool verified) .fnil)))] } :=
  C3_transfer_complete [(.jstr "t2", ⟨"/tmp/airsync_y", [97, 98, 99]⟩)]
    (.fcons (.jstr "id") (.jstr "t2")
      (.fcons (.jstr "checksum") (.jstr (sha256hex [97, 98, 99])) .fnil))
    ⟨"/tmp/airsync_y", [97, 98, 99]⟩ (by decide)

/-!
Device handshake (websocket_handler.py lines 69-85) and the listen loop
(lines 30-60).  The user-registered `mac_info_request` event handler is a
parameter `macReq`; `Server._fire_event` returns `None` when no handler
is registered or the handler raised, which is the `jnull` result.
-/

structure DeviceResult where
  authenticated : Bool
  cache : JFields
  sent : List JTree
  fired : List String
  closedWith : Option Nat
  deriving DecidableEq, Repr

/-- WebSocketHandler.handle_device: a second `device` message returns
immediately; otherwise the payload is cached, the flag set, and the
`macInfo` reply is built from the `mac_info_request` result enriched with
the cached app-icon package names; a falsy or non-dict result (or a
non-dict app_icons slot) raises and closes with code 1011. -/
def handle_device (macReq : JTree → JTree) (auth : Bool) (st : JFields)
    (data : JTree) : DeviceResult :=
  if auth then ⟨auth, st, [], [], none⟩
  else
    let st2 := set_device_info st data
    let mac := macReq data
    if truthy mac then
      match mac with
      | .jobj mfs =>
          match get_state st2 (.jstr "app_icons") with
          | .jobj m =>
              ⟨true, st2,
                [mkMsg "macInfo"
                  (.jobj (jset mfs (.jstr "savedAppPackages")
                    (.jarr (jkeys m))))],
                ["mac_info_request", "device_connected"], none⟩
          | _ => ⟨true, st2, [], ["mac_info_request"], some 1011⟩
      | _ => ⟨true, st2, [], ["mac_info_request"], some 1011⟩
    else ⟨true, st2, [], ["mac_info_request"], some 1011⟩

theorem handle_device_unauth (macReq : JTree → JTree) (st : JFields)
    (data : JTree) :
    (handle_device macReq false st data).authenticated = true ∧
    (handle_device macReq false st data).cache = set_device_info st data := by
  unfold handle_device
  simp only [Bool.false_eq_true, if_false]
  split
  · split
    · split <;> exact ⟨rfl, rfl⟩
    all_goals exact ⟨rfl, rfl⟩
  · exact ⟨rfl, rfl⟩

/-- C6: a device message is accepted exactly once — when the flag is
already set, handle_device leaves the handler flag, the DeviceState cache
and all outputs untouched; when it is not set, the flag becomes true and
the payload is cached as `device_info`. -/
theorem C6_device_accepted_once (macReq : JTree → JTree) (auth : Bool)
    (st : JFields) (data : JTree) :
    (auth = true →
      handle_device macReq auth st data = ⟨true, st, [], [], none⟩) ∧
    (auth = false →
      (handle_device macReq auth st data).authenticated = true ∧
      jget (handle_device macReq auth st data).cache (.jstr "device_info") =
        some data) := by
  constructor
  · intro h; subst h; rfl
  · intro h; subst h
    obtain ⟨h1, h2⟩ := handle_device_unauth macReq st data
    refine ⟨h1, ?_⟩
    rw [h2]
    exact jget_jset_self _ _ st

/-- C6 witness: concrete duplicate and first-time device messages. -/
theorem C6_device_accepted_once_witness :
    handle_device (fun _ => .jnull) true initState (.jobj .fnil) =
      ⟨true, initState, [], [], none⟩ ∧
    ((handle_device (fun _ => .jnull) false initState
        (.jobj .fnil)).authenticated = true ∧
      jget (handle_device (fun _ => .jnull) false initState
        (.jobj .fnil)).cache (.jstr "device_info") = some (.jobj .fnil)) :=
  ⟨(C6_device_accepted_once (fun _ => .jnull) true initState
      (.jobj .fnil)).1 rfl,
   (C6_device_accepted_once (fun _ => .jnull) false initState
      (.jobj .fnil)).2 rfl⟩

/-!
Listen loop (lines 30-60), viewed after the codec layer: each inbound
frame either fails to produce a JSON object (empty string, invalid JSON,
or a non-object — all skipped with a log, `none` here) or yields a parsed
object.  The trace records each dispatch together with the value of the
`is_authenticated` flag at dispatch time, and any close.  A close with
code 1002 returns from the loop; a close with code 1011 (failed
handshake) ends the connection, terminating the iteration.  Cache
updates by handlers other than handle_device cannot influence the trace
shape and are not threaded.
-/

inductive LEv where
  | dispatched (auth : Bool) (ty : JTree) (data : JTree)
  | closed (code : Nat)
  deriving DecidableEq, Repr

def listenLoop (macReq : JTree → JTree) (auth : Bool) (st : JFields) :
    List (Option JFields) → List LEv
  | [] => []
  | none :: rest => listenLoop macReq auth st rest
  | some fs :: rest =>
      let ty := pyGet fs "type"
      let data := (jget fs (.jstr "data")).getD (.jobj .fnil)
      if !auth && !(ty == .jstr "device") then [.closed 1002]
      else if ty == .jstr "device" then
        match (handle_device macReq auth st data).closedWith with
        | some code => .dispatched auth ty data :: [.closed code]
        | none =>
            .dispatched auth ty data ::
              listenLoop macReq
                (handle_device macReq auth st data).authenticated
                (handle_device macReq auth st data).cache rest
      else
        .dispatched auth ty data :: listenLoop macReq auth st rest

theorem listenLoop_auth_true (macReq : JTree → JTree) :
    ∀ (msgs : List (Option JFields)) (st : JFields) (ty data : JTree),
      LEv.dispatched false ty data ∈ listenLoop macReq true st msgs → False
  | [], _, _, _, h => by simp [listenLoop] at h
  | none :: rest, st, ty, data, h =>
      listenLoop_auth_true macReq rest st ty data
        (by simpa [listenLoop] using h)
  | some fs :: rest, st, ty, data, h => by
      rw [listenLoop] at h
      simp only [Bool.not_true, Bool.false_and, Bool.false_eq_true,
        if_false] at h
      split at h
      · split at h
        · simp at h
        · simp only [List.mem_cons] at h
          rcases h with h | h
          · simp at h
          · exact listenLoop_auth_true macReq rest _ ty data h
      · simp only [List.mem_cons] at h
        rcases h with h | h
        · simp at h
        · exact listenLoop_auth_true macReq rest st ty data h

theorem listenLoop_unauth_dispatch_device (macReq : JTree → JTree) :
    ∀ (msgs : List (Option JFields)) (st : JFields) (ty data : JTree),
      LEv.dispatched false ty data ∈ listenLoop macReq false st msgs →
      ty = .jstr "device"
  | [], _, _, _, h => absurd h (by simp [listenLoop])
  | none :: rest, st, ty, data, h =>
      listenLoop_unauth_dispatch_device macReq rest st ty data
        (by simpa [listenLoop] using h)
  | some fs :: rest, st, ty, data, h => by
      rw [listenLoop] at h
      simp only [Bool.not_false, Bool.true_and] at h
      split at h
      · simp at h
      · rename_i hg
        have hdev : pyGet fs "type" = .jstr "device" := by
          simpa using hg
        split at h
        · split at h
          · simp only [List.mem_cons, List.mem_singleton] at h
            rcases h with h | h
            · obtain ⟨h1, h2⟩ : ty = pyGet fs "type" ∧
                  data = (jget fs (.jstr "data")).getD (.jobj .fnil) := by
                simpa using h
              rw [h1, hdev]
            · simp at h
          · simp only [List.mem_cons] at h
            rcases h with h | h
            · obtain ⟨h1, h2⟩ : ty = pyGet fs "type" ∧
                  data = (jget fs (.jstr "data")).getD (.jobj .fnil) := by
                simpa using h
              rw [h1, hdev]
            · exact absurd h (listenLoop_auth_true macReq rest _ ty data ∘
                fun hh => by
                  rwa [(handle_device_unauth macReq st _).1] at hh)
        · rename_i h2
          exact absurd (by simp [hdev]) h2

theorem listenLoop_closed_last (macReq : JTree → JTree) :
    ∀ (msgs : List (Option JFields)) (auth : Bool) (st : JFields)
      (pre : List LEv) (code : Nat) (suf : List LEv),
      listenLoop macReq auth st msgs = pre ++ .closed code :: suf →
      suf = []
  | [], auth, st, pre, code, suf, h => by
      rw [listenLoop] at h
      exact absurd h.symm (by simp)
  | none :: rest, auth, st, pre, code, suf, h =>
      listenLoop_closed_last macReq rest auth st pre code suf
        (by rwa [listenLoop] at h)
  | some fs :: rest, auth, st, pre, code, suf, h => by
      rw [listenLoop] at h
      split at h
      · cases pre with
        | nil =>
            simp only [List.nil_append, List.cons.injEq] at h
            exact h.2.symm
        | cons p ps => simp at h
      · split at h
        · split at h
          · cases pre with
            | nil => simp at h
            | cons p ps =>
                simp only [List.cons_append, List.cons.injEq] at h
                cases ps with
                | nil =>
                    simp only [List.nil_append, List.cons.injEq] at h
                    exact h.2.2.symm
                | cons q qs => simp at h
          · cases pre with
            | nil => simp at h
            | cons p ps =>
                simp only [List.cons_append, List.cons.injEq] at h
                exact listenLoop_closed_last macReq rest _ _ ps code suf h.2
        · cases pre with
          | nil => simp at h
          | cons p ps =>
              simp only [List.cons_append, List.cons.injEq] at h
              exact listenLoop_closed_last macReq rest auth st ps code suf h.2

theorem listenLoop_first_violation (macReq : JTree → JTree) :
    ∀ (skipped : List (Option JFields)) (st : JFields) (fs : JFields)
      (rest : List (Option JFields)),
      (∀ m ∈ skipped, m = none) →
      pyGet fs "type" ≠ .jstr "device" →
      listenLoop macReq false st (skipped ++ some fs :: rest) =
        [.closed 1002]
  | [], st, fs, rest, hsk, hty => by
      rw [List.nil_append, listenLoop]
      simp only [Bool.not_false, Bool.true_and]
      rw [if_pos]
      simpa using hty
  | m :: sk, st, fs, rest, hsk, hty => by
      have hm : m = none := hsk m (by simp)
      subst hm
      rw [List.cons_append, listenLoop]
      exact listenLoop_first_violation macReq sk st fs rest
        (fun x hx => hsk x (by simp [hx])) hty

/-- C2: while the authenticated flag is false, (i) every dispatched
message has type `device`; (ii) any close terminates the processing loop
(a closed event is always the last trace event); (iii) if the first
frame that parses to a JSON object has a type other than `device`, the
whole trace is a single close with code 1002 and nothing is dispatched. -/
theorem C2_unauthenticated_gate (macReq : JTree → JTree)
    (msgs : List (Option JFields)) :
    (∀ st ty data, LEv.dispatched false ty data ∈
        listenLoop macReq false st msgs → ty = .jstr "device") ∧
    (∀ auth st pre code suf,
      listenLoop macReq auth st msgs = pre ++ .closed code :: suf →
      suf = []) ∧
    (∀ st skipped fs rest, msgs = skipped ++ some fs :: rest →
      (∀ m ∈ skipped, m = none) → pyGet fs "type" ≠ .jstr "device" →
      listenLoop macReq false st msgs = [.closed 1002]) := by
  refine ⟨fun st ty data h =>
      listenLoop_unauth_dispatch_device macReq msgs st ty data h,
    fun auth st pre code suf h =>
      listenLoop_closed_last macReq msgs auth st pre code suf h,
    fun st skipped fs rest hm hsk hty => ?_⟩
  rw [hm]
  exact listenLoop_first_violation macReq skipped st fs rest hsk hty

/-- C2 witness: a connection whose first frame is a `status` message is
closed with 1002 and nothing is dispatched. -/
theorem C2_unauthenticated_gate_witness :
    listenLoop (fun _ => .jnull) false initState
        [some (.fcons (.jstr "type") (.jstr "status") .fnil)] =
      [.closed 1002] :=
  (C2_unauthenticated_gate (fun _ => .jnull)
      [some (.fcons (.jstr "type") (.jstr "status") .fnil)]).2.2
    initState [] (.fcons (.jstr "type") (.jstr "status") .fnil) []
    rfl (by simp) (by decide)

/-!
Outgoing file transfer (websocket_handler.py lines 141-170).  The file is
read in 65536-byte chunks (`chunk_size = 64 * 1024`); after sending each
`fileChunk` the coroutine blocks on the ack event for that index with a
10 s timeout.  `acks i = false` models a timed-out ack, which raises and
aborts the transfer.  The trace records sends and received acks in
program order; the Bool is "transfer completed without error".
-/

def chunkifyF : Nat → List Nat → List (List Nat)
  | 0, _ => []
  | _ + 1, [] => []
  | fuel + 1, b :: bs =>
      (b :: bs).take 65536 :: chunkifyF fuel ((b :: bs).drop 65536)

/-- The chunks produced by `while chunk := f.read(chunk_size)` on a file
with the given contents (fuel keeps the recursion structural). -/
def chunkify (bs : List Nat) : List (List Nat) := chunkifyF bs.length bs

inductive TEv where
  | sentInit
  | sentChunk (index : Nat) (chunk : List Nat)
  | ackOk (index : Nat)
  | sentComplete
  deriving DecidableEq, Repr

/-- The chunk loop of start_outgoing_file_transfer (lines 153-160). -/
def sendChunkLoop (acks : Nat → Bool) : Nat → List (List Nat) →
    List TEv × Bool
  | _, [] => ([], true)
  | i, c :: rest =>
      if acks i then
        (TEv.sentChunk i c :: TEv.ackOk i ::
          (sendChunkLoop acks (i + 1) rest).1,
         (sendChunkLoop acks (i + 1) rest).2)
      else ([TEv.sentChunk i c], false)

/-- start_outgoing_file_transfer: `fileTransferInit`, the chunk loop, and
`fileTransferComplete` only when every chunk was acknowledged. -/
def runOutgoing (bytes : List Nat) (acks : Nat → Bool) : List TEv × Bool :=
  (TEv.sentInit :: (sendChunkLoop acks 0 (chunkify bytes)).1 ++
      (if (sendChunkLoop acks 0 (chunkify bytes)).2 then [TEv.sentComplete]
       else []),
   (sendChunkLoop acks 0 (chunkify bytes)).2)

/-- The trace of a fully acknowledged chunk loop. -/
def expectedTrace : Nat → List (List Nat) → List TEv
  | _, [] => []
  | i, c :: rest => TEv.sentChunk i c :: TEv.ackOk i ::
      expectedTrace (i + 1) rest

def chunkIndices (tr : List TEv) : List Nat :=
  tr.filterMap (fun e => match e with | .sentChunk i _ => some i | _ => none)

theorem sendChunkLoop_ok (acks : Nat → Bool) :
    ∀ (cs : List (List Nat)) (i : Nat),
      (sendChunkLoop acks i cs).2 = true →
      (sendChunkLoop acks i cs).1 = expectedTrace i cs
  | [], _, _ => rfl
  | c :: rest, i, h => by
      rw [sendChunkLoop] at h ⊢
      by_cases ha : acks i = true
      · simp only [ha, if_true] at h ⊢
        rw [expectedTrace, sendChunkLoop_ok acks rest (i + 1) h]
      · simp [ha] at h

theorem chunkIndices_expected :
    ∀ (cs : List (List Nat)) (i : Nat),
      chunkIndices (expectedTrace i cs) = List.range' i cs.length
  | [], _ => rfl
  | c :: rest, i => by
      rw [expectedTrace]
      simp only [chunkIndices, List.filterMap_cons]
      rw [show (List.range' i (c :: rest).length) =
        i :: List.range' (i + 1) rest.length from rfl]
      have := chunkIndices_expected rest (i + 1)
      rw [chunkIndices] at this
      rw [this]

theorem chunkifyF_length :
    ∀ (fuel : Nat) (bs : List Nat), bs.length ≤ fuel →
      (chunkifyF fuel bs).length = (bs.length + 65535) / 65536
  | 0, bs, h => by
      have hb : bs = [] := List.eq_nil_of_length_eq_zero (Nat.le_zero.mp h)
      subst hb
      rfl
  | fuel + 1, [], _ => by rfl
  | fuel + 1, b :: bs, h => by
      rw [chunkifyF]
      have hle : ((b :: bs).drop 65536).length ≤ fuel := by
        simp only [List.length_drop, List.length_cons]
        simp only [List.length_cons] at h
        omega
      rw [List.length_cons,
        chunkifyF_length fuel ((b :: bs).drop 65536) hle]
      simp only [List.length_drop, List.length_cons]
      rcases Nat.lt_or_ge (bs.length + 1) 65537 with hlt | hge
      · have h1 : bs.length + 1 - 65536 = 0 := by omega
        rw [h1]
        have h2 : (bs.length + 1 + 65535) / 65536 = 1 := by
          apply Nat.div_eq_of_lt_le <;> omega
        rw [h2]
      · have e1 : bs.length + 1 - 65536 + 65535 = bs.length := by omega
        have e2 : bs.length + 1 + 65535 = bs.length + 65536 := by omega
        rw [e1, e2, Nat.add_div_right _ (by norm_num)]

theorem expected_ack_before :
    ∀ (cs : List (List Nat)) (j i : Nat) (c : List Nat)
      (pre suf : List TEv),
      expectedTrace j cs = pre ++ TEv.sentChunk i c :: suf →
      j ≤ i ∧ (j < i → TEv.ackOk (i - 1) ∈ pre)
  | [], j, i, c, pre, suf, h => by
      rw [expectedTrace] at h
      exact absurd h.symm (by simp)
  | c0 :: rest, j, i, c, pre, suf, h => by
      rw [expectedTrace] at h
      cases pre with
      | nil =>
          simp only [List.nil_append, List.cons.injEq,
            TEv.sentChunk.injEq] at h
          obtain ⟨⟨hj, _⟩, _⟩ := h
          subst hj
          exact ⟨Nat.le_refl j, fun hlt => absurd hlt (Nat.lt_irrefl j)⟩
      | cons p1 pre1 =>
          simp only [List.cons_append, List.cons.injEq] at h
          obtain ⟨hp1, h⟩ := h
          cases pre1 with
          | nil =>
              simp only [List.nil_append, List.cons.injEq] at h
              exact absurd h.1 (by simp)
          | cons p2 pre2 =>
              simp only [List.cons_append, List.cons.injEq] at h
              obtain ⟨hp2, hrest⟩ := h
              have IH := expected_ack_before rest (j + 1) i c pre2 suf hrest
              refine ⟨by omega, fun hlt => ?_⟩
              by_cases hji : j + 1 = i
              · have he : TEv.ackOk (i - 1) = p2 := by
                  rw [← hp2]
                  congr 1
                  omega
                simp [he]
              · have h2 := IH.2 (by omega)
                simp [List.mem_cons, h2]

theorem split_before_last {α : Type} (x y : α) (hxy : y ≠ x) :
    ∀ (pre : List α) (l suf : List α), l ++ [x] = pre ++ y :: suf →
      ∃ suf2, l = pre ++ y :: suf2
  | [], l, suf, h => by
      cases l with
      | nil =>
          simp only [List.nil_append, List.cons.injEq] at h
          exact absurd h.1.symm hxy
      | cons a l2 =>
          simp only [List.cons_append, List.nil_append,
            List.cons.injEq] at h
          exact ⟨l2, by simp [h.1]⟩
  | p :: pre2, l, suf, h => by
      cases l with
      | nil =>
          simp only [List.nil_append, List.cons_append,
            List.cons.injEq] at h
          exact absurd h.2.symm (by simp)
      | cons a l2 =>
          simp only [List.cons_append, List.cons.injEq] at h
          obtain ⟨ha, h2⟩ := h
          obtain ⟨suf2, hs⟩ := split_before_last x y hxy pre2 l2 suf h2
          exact ⟨suf2, by simp [ha, hs]⟩

/-- C5: a completed outgoing transfer of a file with contents `bytes`
emits exactly ⌈bytes.length / 65536⌉ fileChunk messages, whose indices
are 0 .. n-1 in strictly increasing order (the index list is exactly
`List.range n`), and chunk `i+1` is sent only after the ack for chunk `i`
was received (every trace prefix ending at the send of chunk `i+1`
contains the ack event for `i`). -/
theorem C5_outgoing_chunks (bytes : List Nat) (acks : Nat → Bool)
    (hok : (runOutgoing bytes acks).2 = true) :
    chunkIndices (runOutgoing bytes acks).1 =
      List.range ((bytes.length + 65535) / 65536) ∧
    (∀ i c pre suf,
      (runOutgoing bytes acks).1 = pre ++ TEv.sentChunk (i + 1) c :: suf →
      TEv.ackOk i ∈ pre) := by
  have hok2 : (sendChunkLoop acks 0 (chunkify bytes)).2 = true := by
    simpa [runOutgoing] using hok
  have hbody := sendChunkLoop_ok acks (chunkify bytes) 0 hok2
  have htr : (runOutgoing bytes acks).1 =
      TEv.sentInit :: expectedTrace 0 (chunkify bytes) ++
        [TEv.sentComplete] := by
    simp [runOutgoing, hok2, hbody]
  constructor
  · rw [htr]
    simp only [chunkIndices, List.cons_append, List.filterMap_cons,
      List.filterMap_append, List.filterMap_nil, List.append_nil]
    have hE := chunkIndices_expected (chunkify bytes) 0
    rw [chunkIndices] at hE
    rw [hE]
    have hcl : (chunkify bytes).length = (bytes.length + 65535) / 65536 :=
      chunkifyF_length bytes.length bytes (Nat.le_refl _)
    rw [hcl, List.range_eq_range']
  · intro i c pre suf h
    rw [htr] at h
    cases pre with
    | nil => simp at h
    | cons p pre1 =>
        simp only [List.cons_append, List.cons.injEq] at h
        obtain ⟨hp, h2⟩ := h
        obtain ⟨suf2, hs⟩ := split_before_last TEv.sentComplete
          (TEv.sentChunk (i + 1) c) (by simp) pre1
          (expectedTrace 0 (chunkify bytes)) suf h2
        have hmem := (expected_ack_before (chunkify bytes) 0 (i + 1) c
          pre1 suf2 hs).2 (by omega)
        simp only [Nat.add_sub_cancel] at hmem
        simp [List.mem_cons, hmem]

/-- C5 witness: a 3-byte file with every ack arriving completes with one
chunk of index 0. -/
theorem C5_outgoing_chunks_witness :
    chunkIndices (runOutgoing [1, 2, 3] (fun _ => true)).1 =
      List.range 1 ∧
    (∀ i c pre suf,
      (runOutgoing [1, 2, 3] (fun _ => true)).1 =
        pre ++ TEv.sentChunk (i + 1) c :: suf →
      TEv.ackOk i ∈ pre) :=
  C5_outgoing_chunks [1, 2, 3] (fun _ => true) (by decide)

/-!
Heap model for the deep-snapshot property of DeviceState.get_state
(state.py lines 60-71).  Python objects live in a heap of mutable cells
(dicts and lists) addressed by naturals; scalars are immutable values.
`copy.deepcopy` reads the structural value of the (acyclic) object graph
and re-allocates it at fresh addresses, so the copy shares no mutable
cell with the original; consumer mutation of any cell reachable from the
returned copy therefore cannot change what a subsequent read of the
cache yields.  `toTree` reads a structural value with a depth fuel (the
cache contents are acyclic, built from parsed JSON).
-/

inductive PyVal where
  | pnull
  | pbool (b : Bool)
  | pstr (s : String)
  | pint (n : Int)
  | pref (a : Nat)
  deriving DecidableEq, Repr

inductive HObj where
  | hdict (fields : List (PyVal × PyVal))
  | hlist (items : List PyVal)
  deriving DecidableEq, Repr

abbrev Heap := List (Nat × HObj)

def hLookup : Heap → Nat → Option HObj
  | [], _ => none
  | (a, o) :: rest, b => if a = b then some o else hLookup rest b

def hHas (h : Heap) (a : Nat) : Bool := (hLookup h a).isSome

def freshAddr (h : Heap) : Nat := (h.map Prod.fst).foldr max 0 + 1

/-- Mutation of the object stored at an address (any dict/list item
assignment on that object is a content change of its cell). -/
def hSet (h : Heap) (a : Nat) (o : HObj) : Heap :=
  h.map (fun p => if p.1 = a then (a, o) else p)

mutual

def allocTree : Heap → JTree → Heap × PyVal
  | h, .jnull => (h, .pnull)
  | h, .jbool b => (h, .pbool b)
  | h, .jstr s => (h, .pstr s)
  | h, .jint n => (h, .pint n)
  | h, .jarr xs =>
      ((freshAddr (allocList h xs).1, .hlist (allocList h xs).2) ::
          (allocList h xs).1,
        .pref (freshAddr (allocList h xs).1))
  | h, .jobj fs =>
      ((freshAddr (allocFields h fs).1, .hdict (allocFields h fs).2) ::
          (allocFields h fs).1,
        .pref (freshAddr (allocFields h fs).1))

def allocList : Heap → JList → Heap × List PyVal
  | h, .nil => (h, [])
  | h, .cons x xs =>
      ((allocList (allocTree h x).1 xs).1,
        (allocTree h x).2 :: (allocList (allocTree h x).1 xs).2)

def allocFields : Heap → JFields → Heap × List (PyVal × PyVal)
  | h, .fnil => (h, [])
  | h, .fcons k v rest =>
      ((allocFields (allocTree (allocTree h k).1 v).1 rest).1,
        ((allocTree h k).2, (allocTree (allocTree h k).1 v).2) ::
          (allocFields (allocTree (allocTree h k).1 v).1 rest).2)

end

def toTreeListWith (f : PyVal → Option JTree) : List PyVal → Option JList
  | [] => some .nil
  | v :: vs =>
      match f v, toTreeListWith f vs with
      | some t, some ts => some (.cons t ts)
      | _, _ => none

def toTreeFieldsWith (f : PyVal → Option JTree) :
    List (PyVal × PyVal) → Option JFields
  | [] => some .fnil
  | (k, v) :: rest =>
      match f k, f v, toTreeFieldsWith f rest with
      | some tk, some tv, some tr => some (.fcons tk tv tr)
      | _, _, _ => none

def readObj (f : PyVal → Option JTree) : Option HObj → Option JTree
  | some (.hdict fs) => (toTreeFieldsWith f fs).map .jobj
  | some (.hlist vs) => (toTreeListWith f vs).map .jarr
  | none => none

/-- Structural value of an object graph, with a depth fuel. -/
def toTree : Nat → Heap → PyVal → Option JTree
  | _, _, .pnull => some .jnull
  | _, _, .pbool b => some (.jbool b)
  | _, _, .pstr s => some (.jstr s)
  | _, _, .pint n => some (.jint n)
  | 0, _, .pref _ => none
  | fuel + 1, h, .pref a => readObj (toTree fuel h) (hLookup h a)

def reachListWith (g : PyVal → List Nat) : List PyVal → List Nat
  | [] => []
  | v :: vs => g v ++ reachListWith g vs

def reachFieldsWith (g : PyVal → List Nat) :
    List (PyVal × PyVal) → List Nat
  | [] => []
  | (k, v) :: rest => g k ++ g v ++ reachFieldsWith g rest

def reachObj (g : PyVal → List Nat) : Option HObj → List Nat
  | some (.hdict fs) => reachFieldsWith g fs
  | some (.hlist vs) => reachListWith g vs
  | none => []

/-- Addresses visited by `toTree` with the same fuel. -/
def reachV : Nat → Heap → PyVal → List Nat
  | _, _, .pnull => []
  | _, _, .pbool _ => []
  | _, _, .pstr _ => []
  | _, _, .pint _ => []
  | 0, _, .pref _ => []
  | fuel + 1, h, .pref a => a :: reachObj (reachV fuel h) (hLookup h a)

/-- Model of Python's `copy.deepcopy`: read the structural value and
re-allocate it at fresh addresses. -/
def deepcopyH (fuel : Nat) (h : Heap) (v : PyVal) : Option (Heap × PyVal) :=
  (toTree fuel h v).map (allocTree h)

theorem hHas_lt_fresh :
    ∀ (h : Heap) (a : Nat), hHas h a = true → a < freshAddr h
  | [], a, hh => by simp [hHas, hLookup] at hh
  | (b, o) :: rest, a, hh => by
      unfold hHas hLookup at hh
      unfold freshAddr
      simp only [List.map_cons, List.foldr_cons]
      by_cases hb : b = a
      · subst hb
        exact Nat.lt_succ_of_le (Nat.le_max_left _ _)
      · rw [if_neg hb] at hh
        have h1 := hHas_lt_fresh rest a hh
        unfold freshAddr at h1
        have h2 : a ≤ ((rest.map Prod.fst).foldr max 0) := by omega
        exact Nat.lt_succ_of_le (le_trans h2 (Nat.le_max_right _ _))

theorem hLookup_fresh_none (h : Heap) : hLookup h (freshAddr h) = none := by
  cases hl : hLookup h (freshAddr h) with
  | none => rfl
  | some o =>
      have := hHas_lt_fresh h (freshAddr h) (by simp [hHas, hl])
      omega

/-- Consing a fresh cell preserves every existing lookup. -/
theorem hLookup_cons_fresh (h : Heap) (o : HObj) (b : Nat) (o2 : HObj)
    (hl : hLookup h b = some o2) :
    hLookup ((freshAddr h, o) :: h) b = some o2 := by
  unfold hLookup
  rw [if_neg, hl]
  have := hHas_lt_fresh h b (by simp [hHas, hl])
  omega

mutual

theorem allocTree_ext :
    ∀ (h : Heap) (t : JTree) (b : Nat) (o : HObj),
      hLookup h b = some o → hLookup (allocTree h t).1 b = some o
  | _, .jnull, _, _, hl => hl
  | _, .jbool _, _, _, hl => hl
  | _, .jstr _, _, _, hl => hl
  | _, .jint _, _, _, hl => hl
  | h, .jarr xs, b, o, hl => by
      rw [allocTree]
      exact hLookup_cons_fresh _ _ b o (allocList_ext h xs b o hl)
  | h, .jobj fs, b, o, hl => by
      rw [allocTree]
      exact hLookup_cons_fresh _ _ b o (allocFields_ext h fs b o hl)

theorem allocList_ext :
    ∀ (h : Heap) (xs : JList) (b : Nat) (o : HObj),
      hLookup h b = some o → hLookup (allocList h xs).1 b = some o
  | _, .nil, _, _, hl => hl
  | h, .cons x xs, b, o, hl => by
      rw [allocList]
      exact allocList_ext _ xs b o (allocTree_ext h x b o hl)

theorem allocFields_ext :
    ∀ (h : Heap) (fs : JFields) (b : Nat) (o : HObj),
      hLookup h b = some o → hLookup (allocFields h fs).1 b = some o
  | _, .fnil, _, _, hl => hl
  | h, .fcons k v rest, b, o, hl => by
      rw [allocFields]
      exact allocFields_ext _ rest b o
        (allocTree_ext _ v b o (allocTree_ext h k b o hl))

end

theorem toTreeFieldsWith_mono (f g : PyVal → Option JTree)
    (hfg : ∀ v t, f v = some t → g v = some t) :
    ∀ (fs : List (PyVal × PyVal)) (r : JFields),
      toTreeFieldsWith f fs = some r → toTreeFieldsWith g fs = some r := by
  intro fs
  induction fs with
  | nil => exact fun r h => h
  | cons p rest ih =>
      obtain ⟨k, v⟩ := p
      intro r h
      cases hk : f k with
      | none => simp [toTreeFieldsWith, hk] at h
      | some tk =>
          cases hv : f v with
          | none => simp [toTreeFieldsWith, hk, hv] at h
          | some tv =>
              cases hr : toTreeFieldsWith f rest with
              | none => simp [toTreeFieldsWith, hk, hv, hr] at h
              | some tr =>
                  simp only [toTreeFieldsWith, hk, hv, hr] at h
                  rw [toTreeFieldsWith, hfg k tk hk, hfg v tv hv, ih tr hr]
                  exact h

theorem toTreeListWith_mono (f g : PyVal → Option JTree)
    (hfg : ∀ v t, f v = some t → g v = some t) :
    ∀ (vs : List PyVal) (r : JList),
      toTreeListWith f vs = some r → toTreeListWith g vs = some r := by
  intro vs
  induction vs with
  | nil => exact fun r h => h
  | cons v rest ih =>
      intro r h
      cases hv : f v with
      | none => simp [toTreeListWith, hv] at h
      | some tv =>
          cases hr : toTreeListWith f rest with
          | none => simp [toTreeListWith, hv, hr] at h
          | some tr =>
              simp only [toTreeListWith, hv, hr] at h
              rw [toTreeListWith, hfg v tv hv, ih tr hr]
              exact h

theorem toTree_fuelMono :
    ∀ (fuel fuel2 : Nat) (h : Heap) (v : PyVal) (t : JTree),
      fuel ≤ fuel2 → toTree fuel h v = some t → toTree fuel2 h v = some t
  | _, _, _, .pnull, _, _, ht => by simpa [toTree] using ht
  | _, _, _, .pbool _, _, _, ht => by simpa [toTree] using ht
  | _, _, _, .pstr _, _, _, ht => by simpa [toTree] using ht
  | _, _, _, .pint _, _, _, ht => by simpa [toTree] using ht
  | 0, _, h, .pref a, t, _, ht => by rw [toTree] at ht; cases ht
  | fuel + 1, 0, h, .pref a, t, hle, ht =>
      absurd hle (by omega)
  | fuel + 1, fuel2 + 1, h, .pref a, t, hle, ht => by
      rw [toTree] at ht ⊢
      cases hl : hLookup h a with
      | none => rw [hl, readObj] at ht; cases ht
      | some o =>
          cases o with
          | hdict fs =>
              rw [hl, readObj] at ht
              rw [readObj]
              simp only [Option.map_eq_some'] at ht
              obtain ⟨r, hr, hrt⟩ := ht
              simp only [Option.map_eq_some']
              exact ⟨r, toTreeFieldsWith_mono _ _
                (fun v2 t2 h2 =>
                  toTree_fuelMono fuel fuel2 h v2 t2 (by omega) h2)
                fs r hr, hrt⟩
          | hlist vs =>
              rw [hl, readObj] at ht
              rw [readObj]
              simp only [Option.map_eq_some'] at ht
              obtain ⟨r, hr, hrt⟩ := ht
              simp only [Option.map_eq_some']
              exact ⟨r, toTreeListWith_mono _ _
                (fun v2 t2 h2 =>
                  toTree_fuelMono fuel fuel2 h v2 t2 (by omega) h2)
                vs r hr, hrt⟩

theorem fieldsWith_ext (f g : PyVal → Option JTree)
    (rf rg : PyVal → List Nat)
    (hfg : ∀ v t, f v = some t → g v = some t ∧ rg v = rf v) :
    ∀ (fs : List (PyVal × PyVal)) (r : JFields),
      toTreeFieldsWith f fs = some r →
      toTreeFieldsWith g fs = some r ∧
        reachFieldsWith rg fs = reachFieldsWith rf fs := by
  intro fs
  induction fs with
  | nil => exact fun r h => ⟨h, rfl⟩
  | cons p rest ih =>
      obtain ⟨k, v⟩ := p
      intro r h
      cases hk : f k with
      | none => simp [toTreeFieldsWith, hk] at h
      | some tk =>
          cases hv : f v with
          | none => simp [toTreeFieldsWith, hk, hv] at h
          | some tv =>
              cases hr : toTreeFieldsWith f rest with
              | none => simp [toTreeFieldsWith, hk, hv, hr] at h
              | some tr =>
                  simp only [toTreeFieldsWith, hk, hv, hr] at h
                  obtain ⟨ihr, ihreach⟩ := ih tr hr
                  constructor
                  · rw [toTreeFieldsWith, (hfg k tk hk).1, (hfg v tv hv).1,
                      ihr]
                    exact h
                  · rw [reachFieldsWith, reachFieldsWith, (hfg k tk hk).2,
                      (hfg v tv hv).2, ihreach]

theorem listWith_ext (f g : PyVal → Option JTree)
    (rf rg : PyVal → List Nat)
    (hfg : ∀ v t, f v = some t → g v = some t ∧ rg v = rf v) :
    ∀ (vs : List PyVal) (r : JList),
      toTreeListWith f vs = some r →
      toTreeListWith g vs = some r ∧
        reachListWith rg vs = reachListWith rf vs := by
  intro vs
  induction vs with
  | nil => exact fun r h => ⟨h, rfl⟩
  | cons v rest ih =>
      intro r h
      cases hv : f v with
      | none => simp [toTreeListWith, hv] at h
      | some tv =>
          cases hr : toTreeListWith f rest with
          | none => simp [toTreeListWith, hv, hr] at h
          | some tr =>
              simp only [toTreeListWith, hv, hr] at h
              obtain ⟨ihr, ihreach⟩ := ih tr hr
              constructor
              · rw [toTreeListWith, (hfg v tv hv).1, ihr]
                exact h
              · rw [reachListWith, reachListWith, (hfg v tv hv).2, ihreach]

theorem toTree_ext :
    ∀ (fuel : Nat) (h h2 : Heap)
      (hext : ∀ b o, hLookup h b = some o → hLookup h2 b = some o)
      (v : PyVal) (t : JTree), toTree fuel h v = some t →
      toTree fuel h2 v = some t ∧ reachV fuel h2 v = reachV fuel h v
  | _, _, _, _, .pnull, _, ht => by
      constructor
      · simpa [toTree] using ht
      · simp [reachV]
  | _, _, _, _, .pbool _, _, ht => by
      constructor
      · simpa [toTree] using ht
      · simp [reachV]
  | _, _, _, _, .pstr _, _, ht => by
      constructor
      · simpa [toTree] using ht
      · simp [reachV]
  | _, _, _, _, .pint _, _, ht => by
      constructor
      · simpa [toTree] using ht
      · simp [reachV]
  | 0, h, h2, hext, .pref a, t, ht => by rw [toTree] at ht; cases ht
  | fuel + 1, h, h2, hext, .pref a, t, ht => by
      rw [toTree] at ht
      cases hl : hLookup h a with
      | none => rw [hl, readObj] at ht; cases ht
      | some o =>
          have hl2 : hLookup h2 a = some o := hext a o hl
          cases o with
          | hdict fs =>
              rw [hl, readObj] at ht
              simp only [Option.map_eq_some'] at ht
              obtain ⟨r, hr, hrt⟩ := ht
              obtain ⟨hg, hreach⟩ := fieldsWith_ext (toTree fuel h)
                (toTree fuel h2) (reachV fuel h) (reachV fuel h2)
                (fun v2 t2 h3 => toTree_ext fuel h h2 hext v2 t2 h3) fs r hr
              constructor
              · rw [toTree, hl2, readObj]
                simp only [Option.map_eq_some']
                exact ⟨r, hg, hrt⟩
              · rw [reachV, reachV, hl, hl2, reachObj, reachObj, hreach]
          | hlist vs =>
              rw [hl, readObj] at ht
              simp only [Option.map_eq_some'] at ht
              obtain ⟨r, hr, hrt⟩ := ht
              obtain ⟨hg, hreach⟩ := listWith_ext (toTree fuel h)
                (toTree fuel h2) (reachV fuel h) (reachV fuel h2)
                (fun v2 t2 h3 => toTree_ext fuel h h2 hext v2 t2 h3) vs r hr
              constructor
              · rw [toTree, hl2, readObj]
                simp only [Option.map_eq_some']
                exact ⟨r, hg, hrt⟩
              · rw [reachV, reachV, hl, hl2, reachObj, reachObj, hreach]

theorem fieldsWith_has (h : Heap) (f : PyVal → Option JTree)
    (rf : PyVal → List Nat)
    (hp : ∀ v t, f v = some t → ∀ a, a ∈ rf v → hHas h a = true) :
    ∀ (fs : List (PyVal × PyVal)) (r : JFields),
      toTreeFieldsWith f fs = some r →
      ∀ a, a ∈ reachFieldsWith rf fs → hHas h a = true := by
  intro fs
  induction fs with
  | nil => intro r _ a ha; simp [reachFieldsWith] at ha
  | cons p rest ih =>
      obtain ⟨k, v⟩ := p
      intro r hsome a ha
      rw [reachFieldsWith] at ha
      simp only [List.mem_append] at ha
      cases hk : f k with
      | none => simp [toTreeFieldsWith, hk] at hsome
      | some tk =>
          cases hv : f v with
          | none => simp [toTreeFieldsWith, hk, hv] at hsome
          | some tv =>
              cases hr : toTreeFieldsWith f rest with
              | none => simp [toTreeFieldsWith, hk, hv, hr] at hsome
              | some tr =>
                  rcases ha with (ha | ha) | ha
                  · exact hp k tk hk a ha
                  · exact hp v tv hv a ha
                  · exact ih tr hr a ha

theorem listWith_has (h : Heap) (f : PyVal → Option JTree)
    (rf : PyVal → List Nat)
    (hp : ∀ v t, f v = some t → ∀ a, a ∈ rf v → hHas h a = true) :
    ∀ (vs : List PyVal) (r : JList),
      toTreeListWith f vs = some r →
      ∀ a, a ∈ reachListWith rf vs → hHas h a = true := by
  intro vs
  induction vs with
  | nil => intro r _ a ha; simp [reachListWith] at ha
  | cons v rest ih =>
      intro r hsome a ha
      rw [reachListWith] at ha
      simp only [List.mem_append] at ha
      cases hv : f v with
      | none => simp [toTreeListWith, hv] at hsome
      | some tv =>
          cases hr : toTreeListWith f rest with
          | none => simp [toTreeListWith, hv, hr] at hsome
          | some tr =>
              rcases ha with ha | ha
              · exact hp v tv hv a ha
              · exact ih tr hr a ha

/-- Every address `toTree` reaches on a successful read is live. -/
theorem toTree_reach_has :
    ∀ (fuel : Nat) (h : Heap) (v : PyVal) (t : JTree),
      toTree fuel h v = some t →
      ∀ a, a ∈ reachV fuel h v → hHas h a = true
  | _, _, .pnull, _, _ => by intro a ha; simp [reachV] at ha
  | _, _, .pbool _, _, _ => by intro a ha; simp [reachV] at ha
  | _, _, .pstr _, _, _ => by intro a ha; simp [reachV] at ha
  | _, _, .pint _, _, _ => by intro a ha; simp [reachV] at ha
  | 0, _, .pref _, _, ht => by rw [toTree] at ht; cases ht
  | fuel + 1, h, .pref b, t, ht => by
      intro a ha
      rw [toTree] at ht
      rw [reachV] at ha
      simp only [List.mem_cons] at ha
      cases hl : hLookup h b with
      | none => rw [hl, readObj] at ht; cases ht
      | some o =>
          rcases ha with ha | ha
          · subst ha
            simp [hHas, hl]
          · rw [hl] at ha
            cases o with
            | hdict fs =>
                rw [hl, readObj] at ht
                simp only [Option.map_eq_some'] at ht
                obtain ⟨r, hr, _⟩ := ht
                rw [reachObj] at ha
                exact fieldsWith_has h (toTree fuel h) (reachV fuel h)
                  (fun v2 t2 h2 => toTree_reach_has fuel h v2 t2 h2)
                  fs r hr a ha
            | hlist vs =>
                rw [hl, readObj] at ht
                simp only [Option.map_eq_some'] at ht
                obtain ⟨r, hr, _⟩ := ht
                rw [reachObj] at ha
                exact listWith_has h (toTree fuel h) (reachV fuel h)
                  (fun v2 t2 h2 => toTree_reach_has fuel h v2 t2 h2)
                  vs r hr a ha

theorem hLookup_hSet_ne :
    ∀ (h : Heap) (a b : Nat) (o : HObj), b ≠ a →
      hLookup (hSet h a o) b = hLookup h b
  | [], _, _, _, _ => rfl
  | (c, o2) :: rest, a, b, o, hne => by
      unfold hSet
      simp only [List.map_cons]
      by_cases hc : c = a
      · subst hc
        unfold hLookup
        rw [if_pos rfl, if_neg (by omega), if_neg (by omega)]
        have := hLookup_hSet_ne rest c b o hne
        unfold hSet at this
        exact this
      · unfold hLookup
        rw [if_neg hc]
        by_cases hb : c = b
        · rw [if_pos hb, if_pos hb]
        · rw [if_neg hb, if_neg hb]
          have := hLookup_hSet_ne rest a b o hne
          unfold hSet at this
          exact this

theorem fieldsWith_congr (f f2 : PyVal → Option JTree)
    (rf rf2 : PyVal → List Nat) (a : Nat)
    (hp : ∀ v, a ∉ rf v → f2 v = f v ∧ rf2 v = rf v) :
    ∀ (fs : List (PyVal × PyVal)), a ∉ reachFieldsWith rf fs →
      toTreeFieldsWith f2 fs = toTreeFieldsWith f fs ∧
        reachFieldsWith rf2 fs = reachFieldsWith rf fs := by
  intro fs
  induction fs with
  | nil => exact fun _ => ⟨rfl, rfl⟩
  | cons p rest ih =>
      obtain ⟨k, v⟩ := p
      intro ha
      rw [reachFieldsWith] at ha
      simp only [List.mem_append] at ha
      push_neg at ha
      obtain ⟨⟨hak, hav⟩, har⟩ := ha
      obtain ⟨ihr, ihreach⟩ := ih har
      constructor
      · rw [toTreeFieldsWith, toTreeFieldsWith, (hp k hak).1, (hp v hav).1,
          ihr]
      · rw [reachFieldsWith, reachFieldsWith, (hp k hak).2, (hp v hav).2,
          ihreach]

theorem listWith_congr (f f2 : PyVal → Option JTree)
    (rf rf2 : PyVal → List Nat) (a : Nat)
    (hp : ∀ v, a ∉ rf v → f2 v = f v ∧ rf2 v = rf v) :
    ∀ (vs : List PyVal), a ∉ reachListWith rf vs →
      toTreeListWith f2 vs = toTreeListWith f vs ∧
        reachListWith rf2 vs = reachListWith rf vs := by
  intro vs
  induction vs with
  | nil => exact fun _ => ⟨rfl, rfl⟩
  | cons v rest ih =>
      intro ha
      rw [reachListWith] at ha
      simp only [List.mem_append] at ha
      push_neg at ha
      obtain ⟨hav, har⟩ := ha
      obtain ⟨ihr, ihreach⟩ := ih har
      constructor
      · rw [toTreeListWith, toTreeListWith, (hp v hav).1, ihr]
      · rw [reachListWith, reachListWith, (hp v hav).2, ihreach]

/-- Mutating a cell outside the reach of a value leaves its structural
value (and its reach) unchanged. -/
theorem toTree_hSet :
    ∀ (fuel : Nat) (h : Heap) (a : Nat) (o : HObj) (v : PyVal),
      a ∉ reachV fuel h v →
      toTree fuel (hSet h a o) v = toTree fuel h v ∧
        reachV fuel (hSet h a o) v = reachV fuel h v
  | _, _, _, _, .pnull, _ => by
      constructor <;> simp [toTree, reachV]
  | _, _, _, _, .pbool _, _ => by
      constructor <;> simp [toTree, reachV]
  | _, _, _, _, .pstr _, _ => by
      constructor <;> simp [toTree, reachV]
  | _, _, _, _, .pint _, _ => by
      constructor <;> simp [toTree, reachV]
  | 0, _, _, _, .pref _, _ => by
      constructor <;> simp [toTree, reachV]
  | fuel + 1, h, a, o, .pref b, ha => by
      rw [reachV] at ha
      simp only [List.mem_cons] at ha
      push_neg at ha
      obtain ⟨hab, hrest⟩ := ha
      have hlk : hLookup (hSet h a o) b = hLookup h b :=
        hLookup_hSet_ne h a b o (fun he => hab he.symm)
      cases hl : hLookup h b with
      | none =>
          rw [hl] at hlk
          constructor
          · rw [toTree, toTree, hlk, hl, readObj, readObj]
          · rw [reachV, reachV, hlk, hl, reachObj, reachObj]
      | some ob =>
          rw [hl] at hlk
          rw [hl] at hrest
          cases ob with
          | hdict fs =>
              rw [reachObj] at hrest
              obtain ⟨hc1, hc2⟩ := fieldsWith_congr (toTree fuel h)
                (toTree fuel (hSet h a o)) (reachV fuel h)
                (reachV fuel (hSet h a o)) a
                (fun v2 hv2 => toTree_hSet fuel h a o v2 hv2) fs hrest
              constructor
              · rw [toTree, toTree, hlk, hl, readObj, readObj, hc1]
              · rw [reachV, reachV, hlk, hl, reachObj, reachObj, hc2]
          | hlist vs =>
              rw [reachObj] at hrest
              obtain ⟨hc1, hc2⟩ := listWith_congr (toTree fuel h)
                (toTree fuel (hSet h a o)) (reachV fuel h)
                (reachV fuel (hSet h a o)) a
                (fun v2 hv2 => toTree_hSet fuel h a o v2 hv2) vs hrest
              constructor
              · rw [toTree, toTree, hlk, hl, readObj, readObj, hc1]
              · rw [reachV, reachV, hlk, hl, reachObj, reachObj, hc2]

theorem hLookup_cons_self (h : Heap) (a : Nat) (o : HObj) :
    hLookup ((a, o) :: h) a = some o := by
  unfold hLookup
  rw [if_pos rfl]

mutual

theorem allocTree_correct :
    ∀ (h : Heap) (t : JTree) (hh3 : Heap)
      (hext : ∀ b o, hLookup (allocTree h t).1 b = some o →
        hLookup hh3 b = some o),
      ∃ fuel, toTree fuel hh3 (allocTree h t).2 = some t
  | _, .jnull, _, _ => ⟨0, rfl⟩
  | _, .jbool _, _, _ => ⟨0, rfl⟩
  | _, .jstr _, _, _ => ⟨0, rfl⟩
  | _, .jint _, _, _ => ⟨0, rfl⟩
  | h, .jarr xs, hh3, hext => by
      simp only [allocTree] at hext ⊢
      obtain ⟨fuel, hf⟩ := allocList_correct h xs hh3
        (fun b o hb => hext b o (hLookup_cons_fresh _ _ b o hb))
      refine ⟨fuel + 1, ?_⟩
      rw [toTree]
      have hl3 : hLookup hh3 (freshAddr (allocList h xs).1) =
          some (.hlist (allocList h xs).2) :=
        hext _ _ (hLookup_cons_self _ _ _)
      rw [hl3, readObj, hf]
      rfl
  | h, .jobj fs, hh3, hext => by
      simp only [allocTree] at hext ⊢
      obtain ⟨fuel, hf⟩ := allocFields_correct h fs hh3
        (fun b o hb => hext b o (hLookup_cons_fresh _ _ b o hb))
      refine ⟨fuel + 1, ?_⟩
      rw [toTree]
      have hl3 : hLookup hh3 (freshAddr (allocFields h fs).1) =
          some (.hdict (allocFields h fs).2) :=
        hext _ _ (hLookup_cons_self _ _ _)
      rw [hl3, readObj, hf]
      rfl

theorem allocList_correct :
    ∀ (h : Heap) (xs : JList) (hh3 : Heap)
      (hext : ∀ b o, hLookup (allocList h xs).1 b = some o →
        hLookup hh3 b = some o),
      ∃ fuel, toTreeListWith (toTree fuel hh3) (allocList h xs).2 = some xs
  | _, .nil, _, _ => ⟨0, rfl⟩
  | h, .cons x xs, hh3, hext => by
      simp only [allocList] at hext ⊢
      obtain ⟨f1, h1⟩ := allocTree_correct h x hh3
        (fun b o hb => hext b o (allocList_ext _ xs b o hb))
      obtain ⟨f2, h2⟩ := allocList_correct (allocTree h x).1 xs hh3 hext
      refine ⟨max f1 f2, ?_⟩
      rw [toTreeListWith,
        toTree_fuelMono f1 (max f1 f2) hh3 _ x (Nat.le_max_left _ _) h1,
        toTreeListWith_mono (toTree f2 hh3) (toTree (max f1 f2) hh3)
          (fun v2 t2 hh =>
            toTree_fuelMono f2 (max f1 f2) hh3 v2 t2
              (Nat.le_max_right _ _) hh) _ _ h2]

theorem allocFields_correct :
    ∀ (h : Heap) (fs : JFields) (hh3 : Heap)
      (hext : ∀ b o, hLookup (allocFields h fs).1 b = some o →
        hLookup hh3 b = some o),
      ∃ fuel,
        toTreeFieldsWith (toTree fuel hh3) (allocFields h fs).2 = some fs
  | _, .fnil, _, _ => ⟨0, rfl⟩
  | h, .fcons k v rest, hh3, hext => by
      simp only [allocFields] at hext ⊢
      have hextV : ∀ b o,
          hLookup (allocTree (allocTree h k).1 v).1 b = some o →
          hLookup hh3 b = some o :=
        fun b o hb => hext b o (allocFields_ext _ rest b o hb)
      obtain ⟨f1, h1⟩ := allocTree_correct h k hh3
        (fun b o hb => hextV b o (allocTree_ext _ v b o hb))
      obtain ⟨f2, h2⟩ := allocTree_correct (allocTree h k).1 v hh3 hextV
      obtain ⟨f3, h3f⟩ :=
        allocFields_correct (allocTree (allocTree h k).1 v).1 rest hh3 hext
      refine ⟨max f1 (max f2 f3), ?_⟩
      rw [toTreeFieldsWith,
        toTree_fuelMono f1 _ hh3 _ k (Nat.le_max_left _ _) h1,
        toTree_fuelMono f2 _ hh3 _ v
          (le_trans (Nat.le_max_left _ _) (Nat.le_max_right _ _)) h2,
        toTreeFieldsWith_mono (toTree f3 hh3) _
          (fun v2 t2 hh =>
            toTree_fuelMono f3 _ hh3 v2 t2
              (le_trans (Nat.le_max_right _ _) (Nat.le_max_right _ _)) hh)
          _ _ h3f]

end

mutual

theorem allocTree_fresh :
    ∀ (h : Heap) (t : JTree) (hh3 : Heap)
      (hext : ∀ b o, hLookup (allocTree h t).1 b = some o →
        hLookup hh3 b = some o)
      (fuel a : Nat),
      a ∈ reachV fuel hh3 (allocTree h t).2 → hHas h a = false
  | _, .jnull, _, _, fuel, a, ha => by simp [allocTree, reachV] at ha
  | _, .jbool _, _, _, fuel, a, ha => by simp [allocTree, reachV] at ha
  | _, .jstr _, _, _, fuel, a, ha => by simp [allocTree, reachV] at ha
  | _, .jint _, _, _, fuel, a, ha => by simp [allocTree, reachV] at ha
  | h, .jarr xs, hh3, hext, fuel, a, ha => by
      simp only [allocTree] at hext ha
      cases fuel with
      | zero => simp [reachV] at ha
      | succ fuel =>
          rw [reachV] at ha
          have hl3 : hLookup hh3 (freshAddr (allocList h xs).1) =
              some (.hlist (allocList h xs).2) :=
            hext _ _ (hLookup_cons_self _ _ _)
          rw [hl3, reachObj] at ha
          simp only [List.mem_cons] at ha
          rcases ha with ha | ha
          · subst ha
            cases hh : hHas h (freshAddr (allocList h xs).1) with
            | false => rfl
            | true =>
                exfalso
                unfold hHas at hh
                rw [Option.isSome_iff_exists] at hh
                obtain ⟨o2, ho2⟩ := hh
                have hp := allocList_ext h xs _ o2 ho2
                have := hHas_lt_fresh (allocList h xs).1
                  (freshAddr (allocList h xs).1) (by simp [hHas, hp])
                omega
          · exact allocList_fresh h xs hh3
              (fun b o hb => hext b o (hLookup_cons_fresh _ _ b o hb))
              fuel a ha
  | h, .jobj fs, hh3, hext, fuel, a, ha => by
      simp only [allocTree] at hext ha
      cases fuel with
      | zero => simp [reachV] at ha
      | succ fuel =>
          rw [reachV] at ha
          have hl3 : hLookup hh3 (freshAddr (allocFields h fs).1) =
              some (.hdict (allocFields h fs).2) :=
            hext _ _ (hLookup_cons_self _ _ _)
          rw [hl3, reachObj] at ha
          simp only [List.mem_cons] at ha
          rcases ha with ha | ha
          · subst ha
            cases hh : hHas h (freshAddr (allocFields h fs).1) with
            | false => rfl
            | true =>
                exfalso
                unfold hHas at hh
                rw [Option.isSome_iff_exists] at hh
                obtain ⟨o2, ho2⟩ := hh
                have hp := allocFields_ext h fs _ o2 ho2
                have := hHas_lt_fresh (allocFields h fs).1
                  (freshAddr (allocFields h fs).1) (by simp [hHas, hp])
                omega
          · exact allocFields_fresh h fs hh3
              (fun b o hb => hext b o (hLookup_cons_fresh _ _ b o hb))
              fuel a ha

theorem allocList_fresh :
    ∀ (h : Heap) (xs : JList) (hh3 : Heap)
      (hext : ∀ b o, hLookup (allocList h xs).1 b = some o →
        hLookup hh3 b = some o)
      (fuel a : Nat),
      a ∈ reachListWith (reachV fuel hh3) (allocList h xs).2 →
      hHas h a = false
  | _, .nil, _, _, fuel, a, ha => by
      simp [allocList, reachListWith] at ha
  | h, .cons x xs, hh3, hext, fuel, a, ha => by
      simp only [allocList] at hext ha
      rw [reachListWith] at ha
      simp only [List.mem_append] at ha
      rcases ha with ha | ha
      · exact allocTree_fresh h x hh3
          (fun b o hb => hext b o (allocList_ext _ xs b o hb)) fuel a ha
      · have h4 := allocList_fresh (allocTree h x).1 xs hh3 hext fuel a ha
        cases hh : hHas h a with
        | false => rfl
        | true =>
            exfalso
            unfold hHas at hh
            rw [Option.isSome_iff_exists] at hh
            obtain ⟨o2, ho2⟩ := hh
            have hp := allocTree_ext h x a o2 ho2
            unfold hHas at h4
            rw [hp] at h4
            simp at h4

theorem allocFields_fresh :
    ∀ (h : Heap) (fs : JFields) (hh3 : Heap)
      (hext : ∀ b o, hLookup (allocFields h fs).1 b = some o →
        hLookup hh3 b = some o)
      (fuel a : Nat),
      a ∈ reachFieldsWith (reachV fuel hh3) (allocFields h fs).2 →
      hHas h a = false
  | _, .fnil, _, _, fuel, a, ha => by
      simp [allocFields, reachFieldsWith] at ha
  | h, .fcons k v rest, hh3, hext, fuel, a, ha => by
      simp only [allocFields] at hext ha
      rw [reachFieldsWith] at ha
      simp only [List.mem_append] at ha
      have hextV : ∀ b o,
          hLookup (allocTree (allocTree h k).1 v).1 b = some o →
          hLookup hh3 b = some o :=
        fun b o hb => hext b o (allocFields_ext _ rest b o hb)
      rcases ha with (ha | ha) | ha
      · exact allocTree_fresh h k hh3
          (fun b o hb => hextV b o (allocTree_ext _ v b o hb)) fuel a ha
      · have h4 := allocTree_fresh (allocTree h k).1 v hh3 hextV fuel a ha
        cases hh : hHas h a with
        | false => rfl
        | true =>
            exfalso
            unfold hHas at hh
            rw [Option.isSome_iff_exists] at hh
            obtain ⟨o2, ho2⟩ := hh
            have hp := allocTree_ext h k a o2 ho2
            unfold hHas at h4
            rw [hp] at h4
            simp at h4
      · have h4 := allocFields_fresh (allocTree (allocTree h k).1 v).1
          rest hh3 hext fuel a ha
        cases hh : hHas h a with
        | false => rfl
        | true =>
            exfalso
            unfold hHas at hh
            rw [Option.isSome_iff_exists] at hh
            obtain ⟨o2, ho2⟩ := hh
            have hp := allocTree_ext (allocTree h k).1 v a _
              (allocTree_ext h k a o2 ho2)
            unfold hHas at h4
            rw [hp] at h4
            simp at h4

end

/-- The value installed by the last update with the given key. -/
def lastUpdate : List (JTree × JTree) → JTree → Option JTree
  | [], _ => none
  | (k0, d) :: rest, k =>
      match lastUpdate rest k with
      | some v => some v
      | none => if k0 = k then some d else none

theorem jmem_init_of_cacheKey (k : JTree) (hk : k ∈ cacheKeys) :
    jmem initState k = true := by
  fin_cases hk <;> decide

theorem truthy_of_cacheKey (k : JTree) (hk : k ∈ cacheKeys) :
    truthy k = true := by
  fin_cases hk <;> decide

/-- An update with one of the five recognized keys is a plain slot
overwrite. -/
theorem update_state_direct (st : JFields) (key data : JTree)
    (hk : key ∈ cacheKeys)
    (hwf : ∀ k2, jmem st k2 = jmem initState k2) :
    update_state st key data = .ok (jset st key data) := by
  have hmem : jmem st key = true := by
    rw [hwf key]
    exact jmem_init_of_cacheKey key hk
  have h1 : key ≠ .jstr "notification" := by fin_cases hk <;> decide
  have h2 : key ≠ .jstr "notificationUpdate" := by fin_cases hk <;> decide
  have h3 : key ≠ .jstr "appIcons" := by fin_cases hk <;> decide
  have h4 : key ≠ .jstr "clipboardUpdate" := by fin_cases hk <;> decide
  unfold update_state
  rw [if_neg h1, if_neg h2, if_neg h3, if_neg h4, if_pos hmem]

theorem wf_jset_cacheKey (st : JFields) (key data : JTree)
    (hk : key ∈ cacheKeys)
    (hwf : ∀ k2, jmem st k2 = jmem initState k2) :
    ∀ k2, jmem (jset st key data) k2 = jmem initState k2 := by
  intro k2
  rw [jmem_jset]
  by_cases h : k2 = key
  · subst h
    simp [jmem_init_of_cacheKey k2 hk]
  · simp [h, hwf k2]

theorem applyUpdates_untouched :
    ∀ (us : List (JTree × JTree)) (st : JFields) (k : JTree),
      (∀ u ∈ us, u.1 ∈ cacheKeys) →
      (∀ k2, jmem st k2 = jmem initState k2) →
      lastUpdate us k = none →
      jget (applyUpdates st us) k = jget st k
  | [], _, _, _, _, _ => rfl
  | (k0, d) :: rest, st, k, hdir, hwf, hlast => by
      rw [lastUpdate] at hlast
      cases hr : lastUpdate rest k with
      | some v => rw [hr] at hlast; cases hlast
      | none =>
          rw [hr] at hlast
          have hne : k0 ≠ k := by
            intro he
            rw [if_pos he] at hlast
            cases hlast
          have hd0 : k0 ∈ cacheKeys := hdir (k0, d) (by simp)
          have happ : applyUpdates st ((k0, d) :: rest) =
              applyUpdates (jset st k0 d) rest := by
            rw [applyUpdates, update_state_direct st k0 d hd0 hwf]
          rw [happ, applyUpdates_untouched rest (jset st k0 d) k
            (fun x hx => hdir x (by simp [hx]))
            (wf_jset_cacheKey st k0 d hd0 hwf) hr]
          exact jget_jset_ne k k0 d (fun he => hne he.symm) st

theorem applyUpdates_last :
    ∀ (us : List (JTree × JTree)) (st : JFields) (k v : JTree),
      (∀ u ∈ us, u.1 ∈ cacheKeys) →
      (∀ k2, jmem st k2 = jmem initState k2) →
      lastUpdate us k = some v →
      jget (applyUpdates st us) k = some v
  | [], _, _, _, _, _, hlast => by cases hlast
  | (k0, d) :: rest, st, k, v, hdir, hwf, hlast => by
      rw [lastUpdate] at hlast
      have hd0 : k0 ∈ cacheKeys := hdir (k0, d) (by simp)
      have happ : applyUpdates st ((k0, d) :: rest) =
          applyUpdates (jset st k0 d) rest := by
        rw [applyUpdates, update_state_direct st k0 d hd0 hwf]
      have hwf2 := wf_jset_cacheKey st k0 d hd0 hwf
      cases hr : lastUpdate rest k with
      | some v2 =>
          rw [hr] at hlast
          injection hlast with hv
          subst hv
          rw [happ]
          exact applyUpdates_last rest (jset st k0 d) k v2
            (fun x hx => hdir x (by simp [hx])) hwf2 hr
      | none =>
          rw [hr] at hlast
          by_cases he : k0 = k
          · rw [if_pos he] at hlast
            injection hlast with hv
            subst hv
            subst he
            rw [happ, applyUpdates_untouched rest (jset st k0 d) k0
              (fun x hx => hdir x (by simp [hx])) hwf2 hr]
            exact jget_jset_self k0 d st
          · rw [if_neg he] at hlast
            cases hlast

/-- C8: (i) pure sequence semantics: after any sequence of update_state
calls whose keys are among the five recognized cache keys, get_state of
such a key returns exactly the value installed by the last update with
that key; (ii) heap semantics: get_state returns a deepcopy of the
cached object — the copy reads back structurally equal to the cache
content, and mutating any heap cell reachable from the returned copy
leaves the structural value that a subsequent read of the cache slot
yields unchanged (the copy aliases no cell of the cache). -/
theorem C8_get_state_snapshot (us : List (JTree × JTree)) (k v : JTree)
    (hdir : ∀ u ∈ us, u.1 ∈ cacheKeys) (hk : k ∈ cacheKeys)
    (hlast : lastUpdate us k = some v)
    (h : Heap) (v0 : PyVal) (t : JTree) (fuel : Nat)
    (hread : toTree fuel h v0 = some t) :
    get_state (applyUpdates initState us) k = v ∧
    ∀ h2 c, deepcopyH fuel h v0 = some (h2, c) →
      (∃ fuel2, toTree fuel2 h2 c = some t) ∧
      ∀ fuel3 a o, a ∈ reachV fuel3 h2 c →
        toTree fuel (hSet h2 a o) v0 = some t := by
  constructor
  · have hg := applyUpdates_last us initState k v hdir (fun _ => rfl) hlast
    unfold get_state
    rw [if_pos (truthy_of_cacheKey k hk), hg]
    rfl
  · intro h2 c hdc
    unfold deepcopyH at hdc
    rw [hread] at hdc
    simp only [Option.map_some'] at hdc
    injection hdc with hdc
    have hh2 : h2 = (allocTree h t).1 := by rw [hdc]
    have hcc : c = (allocTree h t).2 := by rw [hdc]
    subst hh2
    subst hcc
    have hext : ∀ b o2, hLookup h b = some o2 →
        hLookup (allocTree h t).1 b = some o2 :=
      fun b o2 hb => allocTree_ext h t b o2 hb
    constructor
    · exact allocTree_correct h t (allocTree h t).1 (fun b o2 hb => hb)
    · intro fuel3 a o ha
      have hfresh : hHas h a = false :=
        allocTree_fresh h t (allocTree h t).1 (fun b o2 hb => hb) fuel3 a ha
      obtain ⟨ht2, hreach⟩ := toTree_ext fuel h (allocTree h t).1 hext v0 t
        hread
      have hnot : a ∉ reachV fuel (allocTree h t).1 v0 := by
        rw [hreach]
        intro hmem
        have hht := toTree_reach_has fuel h v0 t hread a hmem
        rw [hfresh] at hht
        cases hht
      obtain ⟨hmut, _⟩ := toTree_hSet fuel (allocTree h t).1 a o v0 hnot
      rw [hmut]
      exact ht2

/-- C8 witness: two status updates; the read-back is the second value,
and mutating the copied heap cell does not change the cache read. -/
theorem C8_get_state_snapshot_witness :
    get_state (applyUpdates initState
        [(.jstr "status", .jobj (.fcons (.jstr "battery") (.jint 50) .fnil)),
         (.jstr "status", .jobj (.fcons (.jstr "battery") (.jint 90) .fnil))])
      (.jstr "status") = .jobj (.fcons (.jstr "battery") (.jint 90) .fnil) ∧
    toTree 1 (hSet [(1, .hdict [(.pstr "battery", .pint 50)]),
        (0, .hdict [(.pstr "battery", .pint 50)])] 1 (.hdict []))
      (.pref 0) = some (.jobj (.fcons (.jstr "battery") (.jint 50) .fnil)) := by
  have h := C8_get_state_snapshot
    [(.jstr "status", .jobj (.fcons (.jstr "battery") (.jint 50) .fnil)),
     (.jstr "status", .jobj (.fcons (.jstr "battery") (.jint 90) .fnil))]
    (.jstr "status") (.jobj (.fcons (.jstr "battery") (.jint 90) .fnil))
    (by decide) (by decide) (by decide)
    [(0, .hdict [(.pstr "battery", .pint 50)])] (.pref 0)
    (.jobj (.fcons (.jstr "battery") (.jint 50) .fnil)) 1 (by decide)
  refine ⟨h.1, ?_⟩
  have h2 := h.2 [(1, .hdict [(.pstr "battery", .pint 50)]),
      (0, .hdict [(.pstr "battery", .pint 50)])] (.pref 1) (by decide)
  exact h2.2 1 1 (.hdict []) (by decide)

end AirSync
